import Mathlib

/-!
Shallow embedding of `src/framework/graph_search/best_first_search.py`:
the `SearchNodesPriorityQueue` ("open"), the `SearchNodesCollection`
("closed") and the `BestFirstSearch.solve_problem` expansion loop.

Python dictionaries are modelled as association lists with unique keys;
dictionary assignment replaces an existing binding or appends a new one
(insertion order preserved, as in CPython).  Fallible operations (the
`assert` statements of the source, `del` on a missing key, `popitem` on
an empty heap) return `Option`/`Except`-style values, `none` standing
for the raised error.  Machine floats used for costs/priorities are
modelled as `Int`; nothing in the verified claims depends on rounding.
-/

set_option autoImplicit false

namespace BFS

variable {σ α : Type} [DecidableEq σ]

/-- Python `dict` lookup `m.get(k, None)`. -/
def dictGet (m : List (σ × α)) (k : σ) [DecidableEq σ] : Option α :=
  match m with
  | [] => none
  | (k', v) :: rest => if k' = k then some v else dictGet rest k

/-- Python `k in m`. -/
def dictHas (m : List (σ × α)) (k : σ) [DecidableEq σ] : Bool :=
  (dictGet m k).isSome

/-- Python `m[k] = v`: replace the binding if present, else append. -/
def dictSet (m : List (σ × α)) (k : σ) (v : α) [DecidableEq σ] : List (σ × α) :=
  match m with
  | [] => [(k, v)]
  | (k', v') :: rest => if k' = k then (k, v) :: rest else (k', v') :: dictSet rest k v

/-- Python `del m[k]` (the key is assumed present; deleting a missing key
is handled by the caller via `dictHas`). -/
def dictDel (m : List (σ × α)) (k : σ) [DecidableEq σ] : List (σ × α) :=
  match m with
  | [] => []
  | (k', v') :: rest => if k' = k then rest else (k', v') :: dictDel rest k

/-- `SearchNode` from `graph_problem_interface` (only declared there; its
fields are used throughout `best_first_search.py`).  Modelled from the spec:
`state`, optional `parent` back-reference, `operator_cost` and
`operator_name` of the edge from the parent, derived cumulative `g_cost`
(parent's `g_cost` + `operator_cost`), and the strategy-assigned
`expanding_priority`. -/
inductive SearchNode (σ : Type) : Type where
  | root (state : σ) (operator_cost : Int) (g_cost : Int)
         (expanding_priority : Int) (operator_name : String)
  | child (state : σ) (parent : SearchNode σ) (operator_cost : Int)
          (g_cost : Int) (expanding_priority : Int) (operator_name : String)
  deriving DecidableEq

namespace SearchNode

def state : SearchNode σ → σ
  | root s _ _ _ _ => s
  | child s _ _ _ _ _ => s

/-- `parent_search_node`, `None` for the initial node. -/
def parent : SearchNode σ → Option (SearchNode σ)
  | root _ _ _ _ _ => none
  | child _ p _ _ _ _ => some p

def operator_cost : SearchNode σ → Int
  | root _ c _ _ _ => c
  | child _ _ c _ _ _ => c

def g_cost : SearchNode σ → Int
  | root _ _ g _ _ => g
  | child _ _ _ g _ _ => g

def expanding_priority : SearchNode σ → Int
  | root _ _ _ pr _ => pr
  | child _ _ _ _ pr _ => pr

/-- Modelled from the spec: the solution path is reconstructed by walking
parent links from the goal node to the initial node and reversing
(`SearchNode.make_states_path`, declared in the missing
`graph_problem_interface`). -/
def make_states_path : SearchNode σ → List σ
  | root s _ _ _ _ => [s]
  | child s p _ _ _ _ => make_states_path p ++ [s]

/-- The state at the root of the parent chain (first element of
`make_states_path`). -/
def rootState : SearchNode σ → σ
  | root s _ _ _ _ => s
  | child _ p _ _ _ _ => rootState p

end SearchNode

/-- The composite priority key `(node.expanding_priority, -node.g_cost,
hash(node.state))` used at line 26 of the source.  `hashS` stands for
Python's `hash` on states. -/
def nodeKey (hashS : σ → Int) (n : SearchNode σ) : Int × Int × Int :=
  (n.expanding_priority, -n.g_cost, hashS n.state)

/-- Lexicographic comparison of composite keys, as Python compares the
priority tuples. -/
def keyLe (a b : Int × Int × Int) : Bool :=
  a.1 < b.1 ∨ (a.1 = b.1 ∧ (a.2.1 < b.2.1 ∨ (a.2.1 = b.2.1 ∧ a.2.2 ≤ b.2.2)))

/-- `SearchNodesPriorityQueue`: a `heapdict` mapping node → priority tuple
paired with a state → node dictionary. -/
structure SearchNodesPriorityQueue (σ : Type) : Type where
  nodes_queue : List (SearchNode σ × (Int × Int × Int))
  state_to_search_node_mapping : List (σ × SearchNode σ)
  deriving DecidableEq

namespace SearchNodesPriorityQueue

def empty : SearchNodesPriorityQueue σ := ⟨[], []⟩

def has_state (q : SearchNodesPriorityQueue σ) (s : σ) : Bool :=
  dictHas q.state_to_search_node_mapping s

def get_node_by_state (q : SearchNodesPriorityQueue σ) (s : σ) : Option (SearchNode σ) :=
  dictGet q.state_to_search_node_mapping s

/-- `push_node`; `none` models the `assert node.state not in
self._state_to_search_node_mapping` failing. -/
def push_node (hashS : σ → Int) (q : SearchNodesPriorityQueue σ) (n : SearchNode σ) :
    Option (SearchNodesPriorityQueue σ) :=
  if dictHas q.state_to_search_node_mapping n.state then none
  else some ⟨dictSet q.nodes_queue n (nodeKey hashS n),
             dictSet q.state_to_search_node_mapping n.state n⟩

/-- Modelled from the spec for the missing `utils/heapdict`: `popitem`
removes and returns the minimum-priority entry (failing on an empty
heap); among equal keys the earliest inserted is chosen. -/
def heapPopMin : List (SearchNode σ × (Int × Int × Int)) →
    Option ((SearchNode σ × (Int × Int × Int)) × List (SearchNode σ × (Int × Int × Int)))
  | [] => none
  | e :: rest =>
    match heapPopMin rest with
    | none => some (e, [])
    | some (m, rest') =>
      if keyLe e.2 m.2 then some (e, rest) else some (m, e :: rest')

/-- `pop_next_node`: pop the minimum entry from the heap, then delete the
state binding (`del` on a missing key also fails → `none`). -/
def pop_next_node (q : SearchNodesPriorityQueue σ) :
    Option (SearchNode σ × SearchNodesPriorityQueue σ) :=
  match heapPopMin q.nodes_queue with
  | none => none
  | some ((n, _), rest) =>
    if dictHas q.state_to_search_node_mapping n.state then
      some (n, ⟨rest, dictDel q.state_to_search_node_mapping n.state⟩)
    else none

/-- `peek_next_node`: read-only minimum access. -/
def peek_next_node (q : SearchNodesPriorityQueue σ) : Option (SearchNode σ) :=
  match heapPopMin q.nodes_queue with
  | none => none
  | some ((n, _), _) => some n

/-- `extract_node`: `del` the state binding then `heapdict.pop(node)`;
either key missing raises → `none`. -/
def extract_node (q : SearchNodesPriorityQueue σ) (n : SearchNode σ) :
    Option (SearchNodesPriorityQueue σ) :=
  if dictHas q.state_to_search_node_mapping n.state then
    if dictHas q.nodes_queue n then
      some ⟨dictDel q.nodes_queue n, dictDel q.state_to_search_node_mapping n.state⟩
    else none
  else none

def is_empty (q : SearchNodesPriorityQueue σ) : Bool :=
  q.nodes_queue.isEmpty

def size (q : SearchNodesPriorityQueue σ) : Nat :=
  q.nodes_queue.length

end SearchNodesPriorityQueue

/-- `SearchNodesCollection` ("closed"): a state → node dictionary. -/
structure SearchNodesCollection (σ : Type) : Type where
  state_to_search_node_mapping : List (σ × SearchNode σ)
  deriving DecidableEq

namespace SearchNodesCollection

def empty : SearchNodesCollection σ := ⟨[]⟩

/-- `add_node`; `none` models the failing `assert node.state not in ...`. -/
def add_node (c : SearchNodesCollection σ) (n : SearchNode σ) :
    Option (SearchNodesCollection σ) :=
  if dictHas c.state_to_search_node_mapping n.state then none
  else some ⟨dictSet c.state_to_search_node_mapping n.state n⟩

/-- `remove_node`; `none` models the failing `assert node.state in ...`. -/
def remove_node (c : SearchNodesCollection σ) (n : SearchNode σ) :
    Option (SearchNodesCollection σ) :=
  if dictHas c.state_to_search_node_mapping n.state then
    some ⟨dictDel c.state_to_search_node_mapping n.state⟩
  else none

/-- `has_node`: the state is present AND the stored node is the same node. -/
def has_node (c : SearchNodesCollection σ) (n : SearchNode σ) : Bool :=
  match dictGet c.state_to_search_node_mapping n.state with
  | none => false
  | some m => m = n

def has_state (c : SearchNodesCollection σ) (s : σ) : Bool :=
  dictHas c.state_to_search_node_mapping s

def get_node_by_state (c : SearchNodesCollection σ) (s : σ) : Option (SearchNode σ) :=
  dictGet c.state_to_search_node_mapping s

def size (c : SearchNodesCollection σ) : Nat :=
  c.state_to_search_node_mapping.length

end SearchNodesCollection

/-- Modelled from the spec: `OperatorResult` of the missing
`graph_problem_interface` carries a successor state, an incremental cost
and an operator label. -/
structure OperatorResult (σ : Type) : Type where
  successor_state : σ
  operator_cost : Int
  operator_name : String
  deriving DecidableEq

/-- Modelled from the spec: the abstract `GraphProblem` collaborator
(`initial_state`, `is_goal`, `expand_state_with_costs`; its
`get_zero_cost` returns the cost-domain's additive identity, here `0`). -/
structure GraphProblem (σ : Type) : Type where
  initial_state : σ
  is_goal : σ → Bool
  expand_state_with_costs : σ → List (OperatorResult σ)

def GraphProblem.get_zero_cost (_ : GraphProblem σ) : Int := 0

/-- Modelled from the spec: the `StopReason` enumeration with
`CompletedRunSuccessfully` (goal found or open exhausted) and
`ExceededMaxNrStatesToExpand`. -/
inductive StopReason : Type where
  | CompletedRunSuccessfully
  | ExceededMaxNrStatesToExpand
  deriving DecidableEq

/-- Modelled from the spec: `SearchResult` (solver/problem references and
wall-time are external and omitted; the verified claims concern the
solution path, the counters and the stop reason). -/
structure SearchResult (σ : Type) : Type where
  solution_path : Option (List σ)
  nr_expanded_states : Nat
  max_nr_stored_states : Nat
  stop_reason : StopReason
  deriving DecidableEq

/-- Modelled from the spec: the abstract `_open_successor_node` hook
"decides, per the concrete strategy, whether to insert it into `open`,
replace an existing open/closed entry for the same state, or discard
it."  `insert` optionally evicts the existing open entry and/or the
existing closed entry for the successor's state before pushing. -/
inductive AdmissionDecision : Type where
  | discard
  | insert (replace_open : Bool) (replace_closed : Bool)

/-- The `BestFirstSearch` solver object.  `calc_node_expanding_priority`
and `open_successor_decision` stand for the abstract strategy hooks
(`_calc_node_expanding_priority`, `_open_successor_node`); `hashS` stands
for Python's `hash` on states.  `open_queue`/`close` are the `self.open`
and `self.close` attributes (field `open` is a Lean keyword). -/
structure BestFirstSearch (σ : Type) : Type where
  use_close : Bool
  max_nr_states_to_expand : Option Nat
  open_criterion : Option (SearchNode σ → Bool)
  calc_node_expanding_priority : SearchNode σ → Int
  open_successor_decision : GraphProblem σ → SearchNode σ →
    SearchNodesPriorityQueue σ → Option (SearchNodesCollection σ) → AdmissionDecision
  hashS : σ → Int
  open_queue : SearchNodesPriorityQueue σ
  close : Option (SearchNodesCollection σ)
  max_nr_stored_states : Nat

/-- `BestFirstSearch.__init__`: records the configuration and sets
`self.max_nr_stored_states = 0` (the `open`/`close` attributes start as
`None`; an empty queue stands for the yet-unassigned attribute). -/
def BestFirstSearch.init (use_close : Bool) (max_nr_states_to_expand : Option Nat)
    (open_criterion : Option (SearchNode σ → Bool))
    (score : SearchNode σ → Int)
    (adm : GraphProblem σ → SearchNode σ →
      SearchNodesPriorityQueue σ → Option (SearchNodesCollection σ) → AdmissionDecision)
    (hashS : σ → Int) : BestFirstSearch σ :=
  { use_close := use_close
    max_nr_states_to_expand := max_nr_states_to_expand
    open_criterion := open_criterion
    calc_node_expanding_priority := score
    open_successor_decision := adm
    hashS := hashS
    open_queue := SearchNodesPriorityQueue.empty
    close := none
    max_nr_stored_states := 0 }

/-- The mutable run state of `solve_problem`: `self.open`, `self.close`
and the local variables of the loop.  `stored_observations` and
`extracted_nodes` are instrumentation only: they record, respectively,
every value passed to `max(max_nr_stored_states, ...)` and every node
returned by `_extract_next_search_node_to_expand`; no engine decision
reads them. -/
structure EngineState (σ : Type) : Type where
  open_queue : SearchNodesPriorityQueue σ
  close : Option (SearchNodesCollection σ)
  final_search_node : Option (SearchNode σ)
  nr_expanded_states : Nat
  max_nr_stored_states : Nat
  exceeded_max_nr_expanded_states : Bool
  stored_observations : List Nat
  extracted_nodes : List (SearchNode σ)
  deriving DecidableEq

/-- `_get_current_nr_stored_states`: `len(self.open) + (len(self.close)
if self.close is not None else 0)`. -/
def get_current_nr_stored_states (st : EngineState σ) : Nat :=
  st.open_queue.size + (match st.close with
    | some c => c.size
    | none => 0)

/-- `max_nr_stored_states = max(max_nr_stored_states,
_get_current_nr_stored_states())`, recording the observation. -/
def recordStored (st : EngineState σ) : EngineState σ :=
  { st with
    max_nr_stored_states := max st.max_nr_stored_states (get_current_nr_stored_states st)
    stored_observations := st.stored_observations ++ [get_current_nr_stored_states st] }

/-- The run-loop bookkeeping fields of two states coincide (used to state
that admission effects touch only `open`/`close`). -/
def sameRunVars (a b : EngineState σ) : Prop :=
  a.final_search_node = b.final_search_node ∧
  a.nr_expanded_states = b.nr_expanded_states ∧
  a.max_nr_stored_states = b.max_nr_stored_states ∧
  a.exceeded_max_nr_expanded_states = b.exceeded_max_nr_expanded_states ∧
  a.stored_observations = b.stored_observations ∧
  a.extracted_nodes = b.extracted_nodes

/-- Default `_extract_next_search_node_to_expand`: `none` if `open` is
empty, else pop the minimum node and, under `use_close`, add it to
`close`.  The outer `Option` is an assertion/`KeyError` failure. -/
def extractNext (bfs : BestFirstSearch σ) (st : EngineState σ) :
    Option (Option (SearchNode σ) × EngineState σ) :=
  if st.open_queue.is_empty then some (none, st)
  else
    match st.open_queue.pop_next_node with
    | none => none
    | some (n, q') =>
      if bfs.use_close then
        match st.close with
        | none => none
        | some c =>
          match c.add_node n with
          | none => none
          | some c' =>
            some (some n, { st with open_queue := q', close := some c',
                                    extracted_nodes := st.extracted_nodes ++ [n] })
      else
        some (some n, { st with open_queue := q',
                                extracted_nodes := st.extracted_nodes ++ [n] })

/-- First admission effect: evict the existing open entry for the
successor's state, when asked to replace it (`extract_node` on the node
found via `get_node_by_state`); `none` is a raised error. -/
def admissionDropOpen (st : EngineState σ) (n : SearchNode σ) (replace_open : Bool) :
    Option (EngineState σ) :=
  if replace_open then
    match st.open_queue.get_node_by_state n.state with
    | some existing =>
      match st.open_queue.extract_node existing with
      | none => none
      | some q' => some { st with open_queue := q' }
    | none => some st
  else some st

/-- Second admission effect: evict the existing closed entry for the
successor's state, when asked to replace it (`remove_node`). -/
def admissionDropClosed (st : EngineState σ) (n : SearchNode σ) (replace_closed : Bool) :
    Option (EngineState σ) :=
  if replace_closed then
    match st.close with
    | some c =>
      match c.get_node_by_state n.state with
      | some existing =>
        match c.remove_node existing with
        | none => none
        | some c' => some { st with close := some c' }
      | none => some st
    | none => some st
  else some st

/-- Apply the admission hook's decision to `open`/`close` for a successor
node; `none` is an assertion/`KeyError` failure (e.g. inserting over an
existing entry without evicting it). -/
def applyAdmission (hashS : σ → Int) (st : EngineState σ) (n : SearchNode σ) :
    AdmissionDecision → Option (EngineState σ)
  | AdmissionDecision.discard => some st
  | AdmissionDecision.insert replace_open replace_closed =>
    match admissionDropOpen st n replace_open with
    | none => none
    | some st1 =>
      match admissionDropClosed st1 n replace_closed with
      | none => none
      | some st2 =>
        match st2.open_queue.push_node hashS n with
        | none => none
        | some q' => some { st2 with open_queue := q' }

/-- Assign `expanding_priority` to a freshly created node (line 135/162:
`node.expanding_priority = self._calc_node_expanding_priority(node)`). -/
def SearchNode.withPriority : SearchNode σ → Int → SearchNode σ
  | SearchNode.root s c g _ nm, pr => SearchNode.root s c g pr nm
  | SearchNode.child s p c g _ nm, pr => SearchNode.child s p c g pr nm

/-- Lines 157-162: build the successor node for one `OperatorResult`
(with `g_cost` = parent's `g_cost` + edge cost, per the spec for the
missing `SearchNode` constructor) and assign its scored priority. -/
def mkSuccessor (bfs : BestFirstSearch σ) (parent_node : SearchNode σ)
    (op : OperatorResult σ) : SearchNode σ :=
  let fresh := SearchNode.child op.successor_state parent_node op.operator_cost
    (parent_node.g_cost + op.operator_cost) 0 op.operator_name
  fresh.withPriority (bfs.calc_node_expanding_priority fresh)

/-- Line 163: the optional `open_criterion` filter (`None` accepts all). -/
def passesCriterion (bfs : BestFirstSearch σ) (n : SearchNode σ) : Bool :=
  match bfs.open_criterion with
  | none => true
  | some crit => crit n

/-- The successor-processing loop of lines 155-165: build a node for each
`OperatorResult`, score it, offer it to the admission hook if the
`open_criterion` filter accepts it, then update the stored-states
high-water mark. -/
def processSuccessors (bfs : BestFirstSearch σ) (problem : GraphProblem σ)
    (parent_node : SearchNode σ) :
    List (OperatorResult σ) → EngineState σ → Option (EngineState σ)
  | [], st => some st
  | op :: rest, st =>
    let successor_node := mkSuccessor bfs parent_node op
    match (if passesCriterion bfs successor_node then
            applyAdmission bfs.hashS st successor_node
              (bfs.open_successor_decision problem successor_node st.open_queue st.close)
          else some st) with
    | none => none
    | some st' => processSuccessors bfs problem parent_node rest (recordStored st')

/-- Outcome of the expansion loop: normal termination with the final run
state, a raised assertion/`KeyError`, or fuel exhaustion (the Python
`while True` has no fuel; a run that terminates does so within some
fuel). -/
inductive RunResult (σ : Type) : Type where
  | done (st : EngineState σ)
  | assertionFailed
  | outOfFuel
  deriving DecidableEq

/-- The `while True` loop of lines 140-165: extract (→ `done` when `open`
is exhausted), goal test (→ `done` recording the solution node), budget
test (→ `done` with the exceeded flag, without expanding), else expand. -/
def searchLoop (bfs : BestFirstSearch σ) (problem : GraphProblem σ) :
    Nat → EngineState σ → RunResult σ
  | 0, _ => RunResult.outOfFuel
  | fuel + 1, st =>
    match extractNext bfs st with
    | none => RunResult.assertionFailed
    | some (none, st') => RunResult.done st'
    | some (some next_node_to_expand, st') =>
      if problem.is_goal next_node_to_expand.state then
        RunResult.done { st' with final_search_node := some next_node_to_expand }
      else if (match bfs.max_nr_states_to_expand with
               | some k => decide (st'.nr_expanded_states ≥ k)
               | none => false) then
        RunResult.done { st' with exceeded_max_nr_expanded_states := true }
      else
        match processSuccessors bfs problem next_node_to_expand
            (problem.expand_state_with_costs next_node_to_expand.state)
            { st' with nr_expanded_states := st'.nr_expanded_states + 1 } with
        | none => RunResult.assertionFailed
        | some st''' => searchLoop bfs problem fuel st'''

/-- Outcome of `solve_problem`: the `SearchResult`, the solver object
after the call (its `open`/`close` attributes were reassigned and mutated
during the run) and the final run state. -/
inductive SolveOutcome (σ : Type) : Type where
  | ok (result : SearchResult σ) (selfAfter : BestFirstSearch σ) (finalState : EngineState σ)
  | assertionFailed
  | outOfFuel

/-- The `SearchResult` of a successful run. -/
def SolveOutcome.result? : SolveOutcome σ → Option (SearchResult σ)
  | SolveOutcome.ok r _ _ => some r
  | _ => none

/-- The final run state of a successful run. -/
def SolveOutcome.finalState? : SolveOutcome σ → Option (EngineState σ)
  | SolveOutcome.ok _ _ st => some st
  | _ => none

/-- The `self.max_nr_stored_states` attribute after a successful run. -/
def SolveOutcome.selfMaxStored? : SolveOutcome σ → Option Nat
  | SolveOutcome.ok _ self _ => some self.max_nr_stored_states
  | _ => none

/-- The solver object after lines 125-130: fresh `open` and, under
`use_close`, a fresh `close` (else `None`). -/
def freshSelf (bfs : BestFirstSearch σ) : BestFirstSearch σ :=
  { bfs with
    open_queue := SearchNodesPriorityQueue.empty
    close := if bfs.use_close then some SearchNodesCollection.empty else none }

/-- The scored initial node of lines 133-135: the problem's initial
state, no parent, zero operator cost. -/
def initNode (bfs : BestFirstSearch σ) (problem : GraphProblem σ) : SearchNode σ :=
  let fresh := SearchNode.root problem.initial_state (problem.get_zero_cost)
    (problem.get_zero_cost) 0 ""
  fresh.withPriority (bfs.calc_node_expanding_priority fresh)

/-- The run state right after the initial node is pushed (line 136):
what `solve_problem`'s local state holds when the loop starts, before
the first stored-states observation. -/
def startState (bfs : BestFirstSearch σ) (problem : GraphProblem σ) : EngineState σ where
  open_queue :=
    ⟨[(initNode (freshSelf bfs) problem,
       nodeKey bfs.hashS (initNode (freshSelf bfs) problem))],
     [((initNode (freshSelf bfs) problem).state, initNode (freshSelf bfs) problem)]⟩
  close := if bfs.use_close then some SearchNodesCollection.empty else none
  final_search_node := none
  nr_expanded_states := 0
  max_nr_stored_states := 0
  exceeded_max_nr_expanded_states := false
  stored_observations := []
  extracted_nodes := []

/-- `BestFirstSearch.solve_problem` (lines 113-177): fresh `open`/`close`,
push the scored initial node, record the stored-states mark, run the
loop, then assemble the `SearchResult` (`_init_solver` is the default
no-op). -/
def solve_problem (bfs : BestFirstSearch σ) (problem : GraphProblem σ) (fuel : Nat) :
    SolveOutcome σ :=
  let bfs0 := freshSelf bfs
  let initial_search_node := initNode bfs0 problem
  match bfs0.open_queue.push_node bfs0.hashS initial_search_node with
  | none => SolveOutcome.assertionFailed
  | some q0 =>
    let st0 : EngineState σ :=
      { open_queue := q0
        close := bfs0.close
        final_search_node := none
        nr_expanded_states := 0
        max_nr_stored_states := 0
        exceeded_max_nr_expanded_states := false
        stored_observations := []
        extracted_nodes := [] }
    match searchLoop bfs0 problem fuel (recordStored st0) with
    | RunResult.outOfFuel => SolveOutcome.outOfFuel
    | RunResult.assertionFailed => SolveOutcome.assertionFailed
    | RunResult.done stF =>
      let stop_reason := if stF.exceeded_max_nr_expanded_states then
          StopReason.ExceededMaxNrStatesToExpand
        else StopReason.CompletedRunSuccessfully
      SolveOutcome.ok
        { solution_path := (match stF.final_search_node with
            | some n => some n.make_states_path
            | none => none)
          nr_expanded_states := stF.nr_expanded_states
          max_nr_stored_states := stF.max_nr_stored_states
          stop_reason := stop_reason }
        { bfs0 with open_queue := stF.open_queue, close := stF.close }
        stF

/-! ### Queue well-formedness: the state→node mapping and the priority
structure in 1:1 sync, priorities equal to the composite key, unique
keys on both sides. -/

structure QueueWF (hashS : σ → Int) (q : SearchNodesPriorityQueue σ) : Prop where
  prio_eq : ∀ n p, (n, p) ∈ q.nodes_queue → p = nodeKey hashS n
  queue_to_map : ∀ n p, (n, p) ∈ q.nodes_queue →
    dictGet q.state_to_search_node_mapping n.state = some n
  map_to_queue : ∀ s n, dictGet q.state_to_search_node_mapping s = some n →
    n.state = s ∧ ∃ p, (n, p) ∈ q.nodes_queue
  map_keys_nodup : (q.state_to_search_node_mapping.map Prod.fst).Nodup
  queue_keys_nodup : (q.nodes_queue.map Prod.fst).Nodup

/-- All nodes stored in the priority structure descend from a root node
whose state is `r` (used to relate solution paths to the initial state). -/
def allRooted (r : σ) (q : SearchNodesPriorityQueue σ) : Prop :=
  ∀ n p, (n, p) ∈ q.nodes_queue → n.rootState = r

/-! ### Concrete instances used to exercise the engine (the spec's
end-to-end uniform-cost scenario and small hand-built queues). -/

def hashNat : Nat → Int := Int.ofNat

/-- Linear chain 0 → 1 → 2 → 3 with unit edge costs and goal state 3. -/
def chainProblem : GraphProblem Nat where
  initial_state := 0
  is_goal := fun s => s == 3
  expand_state_with_costs := fun s =>
    if s < 3 then [⟨s + 1, 1, "step"⟩] else []

/-- A problem whose initial state is already a goal. -/
def trivialGoalProblem : GraphProblem Nat where
  initial_state := 0
  is_goal := fun _ => true
  expand_state_with_costs := fun _ => []

/-- Uniform-cost admission policy: discard a successor whose state is
already in `open` or in `close`, otherwise insert it. -/
def ucAdmit : GraphProblem Nat → SearchNode Nat → SearchNodesPriorityQueue Nat →
    Option (SearchNodesCollection Nat) → AdmissionDecision :=
  fun _ n q c =>
    if q.has_state n.state then AdmissionDecision.discard
    else match c with
      | some cc =>
        if cc.has_state n.state then AdmissionDecision.discard
        else AdmissionDecision.insert false false
      | none => AdmissionDecision.insert false false

/-- Uniform-cost solver (priority = `g_cost`) with `use_close = True`. -/
def ucSolver : BestFirstSearch Nat :=
  BestFirstSearch.init true none none (fun n => n.g_cost) ucAdmit hashNat

/-- Uniform-cost solver with an expansion budget. -/
def ucSolverBudget (k : Nat) : BestFirstSearch Nat :=
  BestFirstSearch.init true (some k) none (fun n => n.g_cost) ucAdmit hashNat

def exNodeA : SearchNode Nat := SearchNode.root 0 0 0 5 ""

def exNodeB : SearchNode Nat := SearchNode.child 1 exNodeA 1 1 3 "step"

def exQueue1 : SearchNodesPriorityQueue Nat := ⟨[(exNodeA, (5, 0, 0))], [(0, exNodeA)]⟩

def exQueue2 : SearchNodesPriorityQueue Nat :=
  ⟨[(exNodeA, (5, 0, 0)), (exNodeB, (3, -1, 1))], [(0, exNodeA), (1, exNodeB)]⟩

def exColl1 : SearchNodesCollection Nat := ⟨[(0, exNodeA)]⟩

/-- A problem with no successors and an unsatisfiable goal. -/
def emptyProblem : GraphProblem Nat where
  initial_state := 0
  is_goal := fun _ => false
  expand_state_with_costs := fun _ => []

/-- The scored initial node of the uniform-cost runs (priority `g_cost = 0`). -/
def exNodeInit : SearchNode Nat := SearchNode.root 0 0 0 0 ""

/-- A one-node run state (the state of `solve_problem` on
`trivialGoalProblem`/`chainProblem` right after the initial push). -/
def exState1 : EngineState Nat where
  open_queue := exQueue1
  close := some ⟨[]⟩
  final_search_node := none
  nr_expanded_states := 0
  max_nr_stored_states := 1
  exceeded_max_nr_expanded_states := false
  stored_observations := [1]
  extracted_nodes := []

/-- `exState1` after its node has been extracted (popped and closed). -/
def exState2 : EngineState Nat :=
  ⟨⟨[], []⟩, some ⟨[(0, exNodeA)]⟩, none, 0, 1, false, [1], [exNodeA]⟩

/-- Final run state of `ucSolverBudget 0` on `chainProblem`. -/
def budgetRunState : EngineState Nat :=
  ⟨⟨[], []⟩, some ⟨[(0, exNodeInit)]⟩, none, 0, 1, true, [1], [exNodeInit]⟩

/-- Final run state of `ucSolver` on `emptyProblem`. -/
def emptyRunState : EngineState Nat :=
  ⟨⟨[], []⟩, some ⟨[(0, exNodeInit)]⟩, none, 1, 1, false, [1], [exNodeInit]⟩

/-- Final run state of `ucSolver` on `trivialGoalProblem`. -/
def trivialRunState : EngineState Nat :=
  ⟨⟨[], []⟩, some ⟨[(0, exNodeInit)]⟩, some exNodeInit, 0, 1, false, [1], [exNodeInit]⟩

/-- `SearchResult` of `ucSolver` on `chainProblem`. -/
def chainRunResult : SearchResult Nat :=
  ⟨some [0, 1, 2, 3], 3, 4, StopReason.CompletedRunSuccessfully⟩

/-- `SearchResult` of `ucSolverBudget 0` on `chainProblem`. -/
def budgetRunResult : SearchResult Nat :=
  ⟨none, 0, 1, StopReason.ExceededMaxNrStatesToExpand⟩

/-- `SearchResult` of `ucSolver` on `emptyProblem`. -/
def emptyRunResult : SearchResult Nat :=
  ⟨none, 1, 1, StopReason.CompletedRunSuccessfully⟩

/-- `SearchResult` of `ucSolver` on `trivialGoalProblem`. -/
def trivialRunResult : SearchResult Nat :=
  ⟨some [0], 0, 1, StopReason.CompletedRunSuccessfully⟩

/-! ### Dictionary lemmas -/

theorem dictGet_mem {m : List (σ × α)} {k : σ} {v : α} (h : dictGet m k = some v) :
    (k, v) ∈ m := by
  induction m with
  | nil => simp [dictGet] at h
  | cons e rest ih =>
    obtain ⟨k', v'⟩ := e
    rw [dictGet] at h
    split at h
    · next heq =>
      injection h with h
      subst heq; subst h
      exact List.mem_cons_self _ _
    · exact List.mem_cons_of_mem _ (ih h)

theorem dictGet_eq_none_iff {m : List (σ × α)} {k : σ} :
    dictGet m k = none ↔ ∀ v, (k, v) ∉ m := by
  induction m with
  | nil => simp [dictGet]
  | cons e rest ih =>
    obtain ⟨k', v'⟩ := e
    rw [dictGet]
    split
    · next heq =>
      subst heq
      constructor
      · intro h; exact absurd h (by simp)
      · intro h; exact absurd (List.mem_cons_self _ _) (h v')
    · next hne =>
      rw [ih]
      constructor
      · intro h v hv
        rcases List.mem_cons.1 hv with hv | hv
        · exact hne (congrArg Prod.fst hv).symm
        · exact h v hv
      · intro h v hv
        exact h v (List.mem_cons_of_mem _ hv)

theorem dictHas_eq_false_iff {m : List (σ × α)} {k : σ} :
    dictHas m k = false ↔ dictGet m k = none := by
  cases hg : dictGet m k <;> simp [dictHas, hg]

theorem dictGet_dictSet_self {m : List (σ × α)} {k : σ} {v : α} :
    dictGet (dictSet m k v) k = some v := by
  induction m with
  | nil => simp [dictSet, dictGet]
  | cons e rest ih =>
    obtain ⟨k', v'⟩ := e
    rw [dictSet]
    split
    · rw [dictGet, if_pos rfl]
    · next hne => rw [dictGet, if_neg hne]; exact ih

theorem dictGet_dictSet_ne {m : List (σ × α)} {k k' : σ} {v : α} (h : k' ≠ k) :
    dictGet (dictSet m k v) k' = dictGet m k' := by
  have hks : ¬(k = k') := fun e => h e.symm
  induction m with
  | nil => simp [dictSet, dictGet, hks]
  | cons e rest ih =>
    obtain ⟨k'', v''⟩ := e
    rw [dictSet]
    split
    · next heq =>
      subst heq
      rw [dictGet, if_neg hks, dictGet, if_neg hks]
    · rw [dictGet, dictGet]
      split
      · rfl
      · exact ih

theorem mem_dictSet_of_mem {m : List (σ × α)} {k : σ} {v : α} {x : σ × α}
    (hx : x ∈ m) (hne : x.1 ≠ k) : x ∈ dictSet m k v := by
  induction m with
  | nil => simp at hx
  | cons e rest ih =>
    obtain ⟨k', v'⟩ := e
    rw [dictSet]
    rcases List.mem_cons.1 hx with h | h
    · subst h
      split
      · next heq => exact absurd heq hne
      · exact List.mem_cons_self _ _
    · split
      · exact List.mem_cons_of_mem _ h
      · exact List.mem_cons_of_mem _ (ih h)

theorem self_mem_dictSet {m : List (σ × α)} {k : σ} {v : α} : (k, v) ∈ dictSet m k v := by
  induction m with
  | nil => simp [dictSet]
  | cons e rest ih =>
    obtain ⟨k', v'⟩ := e
    rw [dictSet]
    split
    · exact List.mem_cons_self _ _
    · exact List.mem_cons_of_mem _ ih

theorem mem_dictSet {m : List (σ × α)} {k : σ} {v : α} {x : σ × α}
    (hnd : (m.map Prod.fst).Nodup) (hx : x ∈ dictSet m k v) :
    x = (k, v) ∨ (x ∈ m ∧ x.1 ≠ k) := by
  induction m with
  | nil =>
    rw [dictSet] at hx
    rcases List.mem_singleton.1 hx with rfl
    exact Or.inl rfl
  | cons e rest ih =>
    obtain ⟨k', v'⟩ := e
    simp only [List.map_cons, List.nodup_cons] at hnd
    rw [dictSet] at hx
    split at hx
    · next heq =>
      subst heq
      rcases List.mem_cons.1 hx with hx | hx
      · exact Or.inl hx
      · refine Or.inr ⟨List.mem_cons_of_mem _ hx, ?_⟩
        intro hx1
        exact hnd.1 (hx1 ▸ List.mem_map_of_mem Prod.fst hx)
    · next hne =>
      rcases List.mem_cons.1 hx with hx | hx
      · subst hx; exact Or.inr ⟨List.mem_cons_self _ _, hne⟩
      · rcases ih hnd.2 hx with h | h
        · exact Or.inl h
        · exact Or.inr ⟨List.mem_cons_of_mem _ h.1, h.2⟩

theorem dictDel_sublist {m : List (σ × α)} {k : σ} : List.Sublist (dictDel m k) m := by
  induction m with
  | nil => simp [dictDel]
  | cons e rest ih =>
    obtain ⟨k', v'⟩ := e
    rw [dictDel]
    split
    · exact List.sublist_cons_self _ _
    · exact List.Sublist.cons₂ _ ih

theorem mem_dictDel {m : List (σ × α)} {k : σ} {x : σ × α} (hx : x ∈ dictDel m k) :
    x ∈ m :=
  dictDel_sublist.mem hx

theorem dictGet_dictDel_ne {m : List (σ × α)} {k k' : σ} (h : k' ≠ k) :
    dictGet (dictDel m k) k' = dictGet m k' := by
  have hks : ¬(k = k') := fun e => h e.symm
  induction m with
  | nil => simp [dictDel]
  | cons e rest ih =>
    obtain ⟨k'', v''⟩ := e
    rw [dictDel]
    split
    · next heq =>
      subst heq
      rw [dictGet, if_neg hks]
    · rw [dictGet, dictGet]
      split
      · rfl
      · exact ih

theorem dictGet_dictDel_self {m : List (σ × α)} {k : σ}
    (hnd : (m.map Prod.fst).Nodup) : dictGet (dictDel m k) k = none := by
  induction m with
  | nil => simp [dictDel, dictGet]
  | cons e rest ih =>
    obtain ⟨k', v'⟩ := e
    simp only [List.map_cons, List.nodup_cons] at hnd
    rw [dictDel]
    split
    · next heq =>
      subst heq
      rw [dictGet_eq_none_iff]
      intro v hv
      exact hnd.1 (List.mem_map_of_mem Prod.fst hv)
    · next hne =>
      rw [dictGet, if_neg hne]
      exact ih hnd.2

theorem nodup_dictSet {m : List (σ × α)} {k : σ} {v : α}
    (hnd : (m.map Prod.fst).Nodup) : ((dictSet m k v).map Prod.fst).Nodup := by
  induction m with
  | nil => simp [dictSet]
  | cons e rest ih =>
    obtain ⟨k', v'⟩ := e
    simp only [List.map_cons, List.nodup_cons] at hnd
    rw [dictSet]
    split
    · next heq =>
      subst heq
      simp only [List.map_cons, List.nodup_cons]
      exact ⟨hnd.1, hnd.2⟩
    · next hne =>
      simp only [List.map_cons, List.nodup_cons]
      refine ⟨?_, ih hnd.2⟩
      intro hmem
      rcases List.mem_map.1 hmem with ⟨x, hx, hx1⟩
      rcases mem_dictSet hnd.2 hx with h | h
      · subst h; exact hne hx1.symm
      · exact hnd.1 (hx1 ▸ List.mem_map_of_mem Prod.fst h.1)

theorem nodup_dictDel {m : List (σ × α)} {k : σ}
    (hnd : (m.map Prod.fst).Nodup) : ((dictDel m k).map Prod.fst).Nodup :=
  hnd.sublist (dictDel_sublist.map Prod.fst)

/-! ### Lexicographic-key lemmas -/

theorem keyLe_refl (a : Int × Int × Int) : keyLe a a = true := by
  simp [keyLe]

theorem keyLe_trans {a b c : Int × Int × Int} (h1 : keyLe a b = true)
    (h2 : keyLe b c = true) : keyLe a c = true := by
  simp only [keyLe, decide_eq_true_eq] at h1 h2 ⊢
  omega

theorem keyLe_total_of_not {a b : Int × Int × Int} (h : ¬keyLe a b = true) :
    keyLe b a = true := by
  simp only [keyLe, decide_eq_true_eq] at h ⊢
  omega

/-! ### Heap-minimum lemmas -/

theorem heapPopMin_eq_none {l : List (SearchNode σ × (Int × Int × Int))} :
    SearchNodesPriorityQueue.heapPopMin l = none ↔ l = [] := by
  cases l with
  | nil => simp [SearchNodesPriorityQueue.heapPopMin]
  | cons e rest =>
    rw [SearchNodesPriorityQueue.heapPopMin]
    cases SearchNodesPriorityQueue.heapPopMin rest with
    | none => simp
    | some p =>
      obtain ⟨m, rest'⟩ := p
      by_cases h : keyLe e.2 m.2 <;> simp [h]

theorem heapPopMin_perm {l : List (SearchNode σ × (Int × Int × Int))}
    {e : SearchNode σ × (Int × Int × Int)} {rest : List (SearchNode σ × (Int × Int × Int))}
    (h : SearchNodesPriorityQueue.heapPopMin l = some (e, rest)) :
    l.Perm (e :: rest) := by
  induction l generalizing e rest with
  | nil => simp [SearchNodesPriorityQueue.heapPopMin] at h
  | cons x tail ih =>
    rw [SearchNodesPriorityQueue.heapPopMin] at h
    cases htail : SearchNodesPriorityQueue.heapPopMin tail with
    | none =>
      rw [htail] at h
      simp only [Option.some.injEq, Prod.mk.injEq] at h
      obtain ⟨he, hrest⟩ := h
      subst he; subst hrest
      rw [heapPopMin_eq_none.1 htail]
    | some p =>
      obtain ⟨m, rest'⟩ := p
      rw [htail] at h
      simp only at h
      split at h
      · simp only [Option.some.injEq, Prod.mk.injEq] at h
        obtain ⟨he, hrest⟩ := h
        subst he; subst hrest
        exact List.Perm.refl _
      · simp only [Option.some.injEq, Prod.mk.injEq] at h
        obtain ⟨he, hrest⟩ := h
        subst he; subst hrest
        exact ((ih htail).cons x).trans (List.Perm.swap m x rest')

theorem heapPopMin_min {l : List (SearchNode σ × (Int × Int × Int))}
    {e : SearchNode σ × (Int × Int × Int)} {rest : List (SearchNode σ × (Int × Int × Int))}
    (h : SearchNodesPriorityQueue.heapPopMin l = some (e, rest)) :
    ∀ x ∈ l, keyLe e.2 x.2 = true := by
  induction l generalizing e rest with
  | nil => simp [SearchNodesPriorityQueue.heapPopMin] at h
  | cons y tail ih =>
    rw [SearchNodesPriorityQueue.heapPopMin] at h
    cases htail : SearchNodesPriorityQueue.heapPopMin tail with
    | none =>
      rw [htail] at h
      simp only [Option.some.injEq, Prod.mk.injEq] at h
      obtain ⟨he, _⟩ := h
      subst he
      rw [heapPopMin_eq_none.1 htail]
      intro x hx
      rcases List.mem_singleton.1 hx with rfl
      exact keyLe_refl _
    | some p =>
      obtain ⟨m, rest'⟩ := p
      rw [htail] at h
      simp only at h
      split at h
      · next hle =>
        simp only [Option.some.injEq, Prod.mk.injEq] at h
        obtain ⟨he, _⟩ := h
        subst he
        intro x hx
        rcases List.mem_cons.1 hx with hxy | hx
        · subst hxy; exact keyLe_refl _
        · exact keyLe_trans hle (ih htail x hx)
      · next hle =>
        simp only [Option.some.injEq, Prod.mk.injEq] at h
        obtain ⟨he, _⟩ := h
        subst he
        intro x hx
        rcases List.mem_cons.1 hx with hxy | hx
        · subst hxy; exact keyLe_total_of_not hle
        · exact ih htail x hx

theorem mem_dictDel_of_ne {m : List (σ × α)} {k : σ} {x : σ × α}
    (hx : x ∈ m) (hne : x.1 ≠ k) : x ∈ dictDel m k := by
  induction m with
  | nil => simp at hx
  | cons e rest ih =>
    obtain ⟨k', v'⟩ := e
    rw [dictDel]
    rcases List.mem_cons.1 hx with h | h
    · subst h
      split
      · next heq => exact absurd heq hne
      · exact List.mem_cons_self _ _
    · split
      · exact h
      · exact List.mem_cons_of_mem _ (ih h)

theorem queueWF_empty {hashS : σ → Int} :
    QueueWF hashS (SearchNodesPriorityQueue.empty (σ := σ)) := by
  constructor <;> simp [SearchNodesPriorityQueue.empty, dictGet]

/-- Inversion of a successful `push_node`. -/
theorem push_node_eq_some {hashS : σ → Int} {q q' : SearchNodesPriorityQueue σ}
    {n : SearchNode σ} (h : q.push_node hashS n = some q') :
    dictHas q.state_to_search_node_mapping n.state = false ∧
    q' = ⟨dictSet q.nodes_queue n (nodeKey hashS n),
          dictSet q.state_to_search_node_mapping n.state n⟩ := by
  rw [SearchNodesPriorityQueue.push_node] at h
  split at h
  · exact absurd h (by simp)
  · next hc =>
    refine ⟨Bool.eq_false_iff.2 hc, ?_⟩
    injection h with h
    exact h.symm

/-- `push_node` under its precondition preserves well-formedness. -/
theorem push_node_wf {hashS : σ → Int} {q q' : SearchNodesPriorityQueue σ}
    {n : SearchNode σ} (hwf : QueueWF hashS q) (h : q.push_node hashS n = some q') :
    QueueWF hashS q' := by
  obtain ⟨habs, rfl⟩ := push_node_eq_some h
  have hnone : dictGet q.state_to_search_node_mapping n.state = none :=
    dictHas_eq_false_iff.1 habs
  have hnotq : ∀ p, (n, p) ∉ q.nodes_queue := by
    intro p hp
    rw [hwf.queue_to_map n p hp] at hnone
    exact Option.noConfusion hnone
  constructor
  · intro m p hm
    rcases mem_dictSet hwf.queue_keys_nodup hm with hm | hm
    · simp only [Prod.mk.injEq] at hm
      obtain ⟨rfl, rfl⟩ := hm
      rfl
    · exact hwf.prio_eq m p hm.1
  · intro m p hm
    rcases mem_dictSet hwf.queue_keys_nodup hm with hm | hm
    · simp only [Prod.mk.injEq] at hm
      obtain ⟨rfl, rfl⟩ := hm
      exact dictGet_dictSet_self
    · have hms : m.state ≠ n.state := by
        intro hms
        have := hwf.queue_to_map m p hm.1
        rw [hms, hnone] at this
        exact Option.noConfusion this
      rw [dictGet_dictSet_ne hms]
      exact hwf.queue_to_map m p hm.1
  · intro s m hm
    by_cases hs : s = n.state
    · subst hs
      rw [dictGet_dictSet_self] at hm
      injection hm with hm
      subst hm
      exact ⟨rfl, _, self_mem_dictSet⟩
    · rw [dictGet_dictSet_ne hs] at hm
      obtain ⟨hst, p, hp⟩ := hwf.map_to_queue s m hm
      have hmn : m ≠ n := by
        intro hmn
        subst hmn
        exact hs hst.symm
      exact ⟨hst, p, mem_dictSet_of_mem hp hmn⟩
  · exact nodup_dictSet hwf.map_keys_nodup
  · exact nodup_dictSet hwf.queue_keys_nodup

/-- Inversion of a successful `pop_next_node`. -/
theorem pop_next_node_eq_some {q : SearchNodesPriorityQueue σ} {n : SearchNode σ}
    {q' : SearchNodesPriorityQueue σ} (h : q.pop_next_node = some (n, q')) :
    ∃ p, SearchNodesPriorityQueue.heapPopMin q.nodes_queue = some ((n, p), q'.nodes_queue) ∧
      q'.state_to_search_node_mapping = dictDel q.state_to_search_node_mapping n.state ∧
      dictHas q.state_to_search_node_mapping n.state = true := by
  rw [SearchNodesPriorityQueue.pop_next_node] at h
  cases hm : SearchNodesPriorityQueue.heapPopMin q.nodes_queue with
  | none => rw [hm] at h; exact absurd h (by simp)
  | some e =>
    obtain ⟨⟨n0, p⟩, rest⟩ := e
    rw [hm] at h
    simp only at h
    split at h
    · next hhas =>
      simp only [Option.some.injEq, Prod.mk.injEq] at h
      obtain ⟨rfl, rfl⟩ := h
      exact ⟨p, rfl, rfl, hhas⟩
    · exact absurd h (by simp)

/-- A non-empty well-formed queue pops successfully. -/
theorem pop_next_node_total {hashS : σ → Int} {q : SearchNodesPriorityQueue σ}
    (hwf : QueueWF hashS q) (hne : q.nodes_queue ≠ []) :
    ∃ n q', q.pop_next_node = some (n, q') := by
  cases hm : SearchNodesPriorityQueue.heapPopMin q.nodes_queue with
  | none => exact absurd (heapPopMin_eq_none.1 hm) hne
  | some e =>
    obtain ⟨⟨n0, p⟩, rest⟩ := e
    have hmem : (n0, p) ∈ q.nodes_queue := (heapPopMin_perm hm).mem_iff.2 (List.mem_cons_self _ _)
    have hget := hwf.queue_to_map n0 p hmem
    have hhas : dictHas q.state_to_search_node_mapping n0.state = true := by
      rw [dictHas, hget]; rfl
    refine ⟨n0, ⟨rest, dictDel q.state_to_search_node_mapping n0.state⟩, ?_⟩
    rw [SearchNodesPriorityQueue.pop_next_node, hm]
    simp only [hhas]
    rfl

/-- The popped node was in the heap with its composite key, and the heap
shrinks by exactly that entry. -/
theorem pop_next_node_perm {hashS : σ → Int} {q : SearchNodesPriorityQueue σ}
    {n : SearchNode σ} {q' : SearchNodesPriorityQueue σ}
    (hwf : QueueWF hashS q) (h : q.pop_next_node = some (n, q')) :
    q.nodes_queue.Perm ((n, nodeKey hashS n) :: q'.nodes_queue) := by
  obtain ⟨p, hm, _, _⟩ := pop_next_node_eq_some h
  have hmem : (n, p) ∈ q.nodes_queue := (heapPopMin_perm hm).mem_iff.2 (List.mem_cons_self _ _)
  have hp := hwf.prio_eq n p hmem
  exact hp ▸ heapPopMin_perm hm

/-- The popped node's composite key is minimal in the queue. -/
theorem pop_next_node_min {hashS : σ → Int} {q : SearchNodesPriorityQueue σ}
    {n : SearchNode σ} {q' : SearchNodesPriorityQueue σ}
    (hwf : QueueWF hashS q) (h : q.pop_next_node = some (n, q')) :
    ∀ m p, (m, p) ∈ q.nodes_queue → keyLe (nodeKey hashS n) (nodeKey hashS m) = true := by
  obtain ⟨p0, hm, _, _⟩ := pop_next_node_eq_some h
  have hmem : (n, p0) ∈ q.nodes_queue := (heapPopMin_perm hm).mem_iff.2 (List.mem_cons_self _ _)
  have hp0 := hwf.prio_eq n p0 hmem
  intro m p hmp
  have hp := hwf.prio_eq m p hmp
  have := heapPopMin_min hm (m, p) hmp
  simp only at this
  rw [hp] at this
  rw [← hp0]
  exact this

/-- After popping, the popped state is gone from the mapping. -/
theorem pop_next_node_has_state {hashS : σ → Int} {q : SearchNodesPriorityQueue σ}
    {n : SearchNode σ} {q' : SearchNodesPriorityQueue σ}
    (hwf : QueueWF hashS q) (h : q.pop_next_node = some (n, q')) :
    q'.has_state n.state = false := by
  obtain ⟨p, _, hmap, _⟩ := pop_next_node_eq_some h
  rw [SearchNodesPriorityQueue.has_state, hmap, dictHas_eq_false_iff]
  exact dictGet_dictDel_self hwf.map_keys_nodup

/-- `pop_next_node` preserves well-formedness. -/
theorem pop_next_node_wf {hashS : σ → Int} {q : SearchNodesPriorityQueue σ}
    {n : SearchNode σ} {q' : SearchNodesPriorityQueue σ}
    (hwf : QueueWF hashS q) (h : q.pop_next_node = some (n, q')) :
    QueueWF hashS q' := by
  obtain ⟨p, hm, hmap, _⟩ := pop_next_node_eq_some h
  have hperm := heapPopMin_perm hm
  have hkeysperm : (q.nodes_queue.map Prod.fst).Perm (n :: q'.nodes_queue.map Prod.fst) :=
    hperm.map Prod.fst
  have hkeysnd : (n :: q'.nodes_queue.map Prod.fst).Nodup :=
    hkeysperm.nodup hwf.queue_keys_nodup
  have hsub : ∀ x ∈ q'.nodes_queue, x ∈ q.nodes_queue := by
    intro x hx
    exact hperm.mem_iff.2 (List.mem_cons_of_mem _ hx)
  constructor
  · intro m p' hmp
    exact hwf.prio_eq m p' (hsub _ hmp)
  · intro m p' hmp
    have hmemq := hsub _ hmp
    have hget := hwf.queue_to_map m p' hmemq
    have hms : m.state ≠ n.state := by
      intro hms
      have hmemn : (n, p) ∈ q.nodes_queue :=
        hperm.mem_iff.2 (List.mem_cons_self _ _)
      have hgetn := hwf.queue_to_map n p hmemn
      rw [hms, hgetn] at hget
      injection hget with hget
      subst hget
      exact (List.nodup_cons.1 hkeysnd).1 (List.mem_map_of_mem Prod.fst hmp)
    rw [hmap, dictGet_dictDel_ne hms]
    exact hget
  · intro s m hget
    rw [hmap] at hget
    by_cases hs : s = n.state
    · subst hs
      rw [dictGet_dictDel_self hwf.map_keys_nodup] at hget
      exact absurd hget (by simp)
    · rw [dictGet_dictDel_ne hs] at hget
      obtain ⟨hst, p', hp'⟩ := hwf.map_to_queue s m hget
      have hmn : m ≠ n := by
        intro hmn
        subst hmn
        exact hs hst.symm
      rcases List.mem_cons.1 (hperm.mem_iff.1 hp') with hh | hh
      · simp only [Prod.mk.injEq] at hh
        exact absurd hh.1 hmn
      · exact ⟨hst, p', hh⟩
  · rw [hmap]
    exact nodup_dictDel hwf.map_keys_nodup
  · exact (List.nodup_cons.1 hkeysnd).2

/-- Inversion of a successful `extract_node`. -/
theorem extract_node_eq_some {q : SearchNodesPriorityQueue σ} {n : SearchNode σ}
    {q' : SearchNodesPriorityQueue σ} (h : q.extract_node n = some q') :
    dictHas q.state_to_search_node_mapping n.state = true ∧
    dictHas q.nodes_queue n = true ∧
    q' = ⟨dictDel q.nodes_queue n, dictDel q.state_to_search_node_mapping n.state⟩ := by
  rw [SearchNodesPriorityQueue.extract_node] at h
  split at h
  · next h1 =>
    split at h
    · next h2 =>
      injection h with h
      exact ⟨h1, h2, h.symm⟩
    · exact absurd h (by simp)
  · exact absurd h (by simp)

/-- `extract_node` under its precondition preserves well-formedness.
Eligibility: the node actually resides in the queue. -/
theorem extract_node_wf {hashS : σ → Int} {q : SearchNodesPriorityQueue σ}
    {n : SearchNode σ} {q' : SearchNodesPriorityQueue σ}
    (hwf : QueueWF hashS q) (h : q.extract_node n = some q') :
    QueueWF hashS q' := by
  obtain ⟨hmaphas, hqhas, rfl⟩ := extract_node_eq_some h
  have hnmem : ∃ p, (n, p) ∈ q.nodes_queue := by
    rw [dictHas] at hqhas
    cases hg : dictGet q.nodes_queue n with
    | none => rw [hg] at hqhas; exact absurd hqhas (by simp)
    | some p => exact ⟨p, dictGet_mem hg⟩
  obtain ⟨pn, hpn⟩ := hnmem
  have hgetn := hwf.queue_to_map n pn hpn
  have hnotdel : ∀ p, (n, p) ∉ dictDel q.nodes_queue n := by
    intro p
    have := dictGet_dictDel_self (k := n) hwf.queue_keys_nodup
    exact dictGet_eq_none_iff.1 this p
  constructor
  · intro m p hmp
    exact hwf.prio_eq m p (mem_dictDel hmp)
  · intro m p hmp
    have hmemq := mem_dictDel hmp
    have hget := hwf.queue_to_map m p hmemq
    have hms : m.state ≠ n.state := by
      intro hms
      rw [hms, hgetn] at hget
      injection hget with hget
      subst hget
      exact hnotdel p hmp
    rw [dictGet_dictDel_ne hms]
    exact hget
  · intro s m hget
    by_cases hs : s = n.state
    · subst hs
      rw [dictGet_dictDel_self hwf.map_keys_nodup] at hget
      exact absurd hget (by simp)
    · rw [dictGet_dictDel_ne hs] at hget
      obtain ⟨hst, p', hp'⟩ := hwf.map_to_queue s m hget
      have hmn : m ≠ n := by
        intro hmn
        subst hmn
        exact hs hst.symm
      exact ⟨hst, p', mem_dictDel_of_ne hp' hmn⟩
  · exact nodup_dictDel hwf.map_keys_nodup
  · exact nodup_dictDel hwf.queue_keys_nodup

/-! ### Claims about the open-queue data structure -/

/-- C2: for every non-empty well-formed `SearchNodesPriorityQueue`,
`pop_next_node` removes and returns the node whose tuple
`(expanding_priority, -g_cost, hash(state))` is lexicographically
smallest among all nodes currently in the queue. -/
theorem claim_C2_pop_is_lex_min (hashS : σ → Int) (q : SearchNodesPriorityQueue σ)
    (hwf : QueueWF hashS q) (hne : q.nodes_queue ≠ []) :
    ∃ n q', q.pop_next_node = some (n, q') ∧
      (∀ m p, (m, p) ∈ q.nodes_queue → keyLe (nodeKey hashS n) (nodeKey hashS m) = true) ∧
      q.nodes_queue.Perm ((n, nodeKey hashS n) :: q'.nodes_queue) ∧
      q'.has_state n.state = false := by
  obtain ⟨n, q', hpop⟩ := pop_next_node_total hwf hne
  exact ⟨n, q', hpop, pop_next_node_min hwf hpop, pop_next_node_perm hwf hpop,
    pop_next_node_has_state hwf hpop⟩

/-- Witness for C2 on a two-node queue (priorities (5,0,0) and (3,-1,1)). -/
theorem claim_C2_pop_is_lex_min_witness :
    ∃ n q', exQueue2.pop_next_node = some (n, q') ∧
      (∀ m p, (m, p) ∈ exQueue2.nodes_queue →
        keyLe (nodeKey hashNat n) (nodeKey hashNat m) = true) ∧
      exQueue2.nodes_queue.Perm ((n, nodeKey hashNat n) :: q'.nodes_queue) ∧
      q'.has_state n.state = false := by
  have h1 : SearchNodesPriorityQueue.empty.push_node hashNat exNodeA = some exQueue1 := by
    decide
  have h2 : exQueue1.push_node hashNat exNodeB = some exQueue2 := by decide
  have hwf : QueueWF hashNat exQueue2 := push_node_wf (push_node_wf queueWF_empty h1) h2
  exact claim_C2_pop_is_lex_min hashNat exQueue2 hwf (by decide)

/-- C5: the empty queue is well-formed, each operation performed under
its precondition preserves well-formedness — in particular the 1:1 sync
of the state→node mapping with the priority structure — and in a
well-formed queue a node resides in the priority structure iff the
mapping holds that identical node under its state. -/
theorem claim_C5_open_sync_invariant (hashS : σ → Int) :
    QueueWF hashS (SearchNodesPriorityQueue.empty (σ := σ)) ∧
    (∀ q q' n, QueueWF hashS q → q.push_node hashS n = some q' → QueueWF hashS q') ∧
    (∀ q q' n, QueueWF hashS q → q.pop_next_node = some (n, q') → QueueWF hashS q') ∧
    (∀ q q' n, QueueWF hashS q → q.extract_node n = some q' → QueueWF hashS q') ∧
    (∀ q, QueueWF hashS q → ∀ n : SearchNode σ,
      (∃ p, (n, p) ∈ q.nodes_queue) ↔ q.get_node_by_state n.state = some n) := by
  refine ⟨queueWF_empty, fun q q' n hwf h => push_node_wf hwf h,
    fun q q' n hwf h => pop_next_node_wf hwf h,
    fun q q' n hwf h => extract_node_wf hwf h, ?_⟩
  intro q hwf n
  constructor
  · rintro ⟨p, hp⟩
    exact hwf.queue_to_map n p hp
  · intro h
    obtain ⟨_, p, hp⟩ := hwf.map_to_queue n.state n h
    exact ⟨p, hp⟩

/-- Witness for C5: pushing onto the empty queue yields a queue that is
still in sync. -/
theorem claim_C5_open_sync_invariant_witness : QueueWF hashNat exQueue1 := by
  have h1 : SearchNodesPriorityQueue.empty.push_node hashNat exNodeA = some exQueue1 := by
    decide
  exact (claim_C5_open_sync_invariant hashNat).2.1 SearchNodesPriorityQueue.empty
    exQueue1 exNodeA (claim_C5_open_sync_invariant hashNat).1 h1

/-- C7: every contract violation — pushing a state already in `open`,
adding a state already in `close`, removing or extracting an absent
node, popping an empty queue — fails immediately with the raised
assertion/`KeyError` (`none`), never silently tolerated. -/
theorem claim_C7_contract_violations_fail (hashS : σ → Int)
    (q : SearchNodesPriorityQueue σ) (c : SearchNodesCollection σ) (n : SearchNode σ) :
    (q.has_state n.state = true → q.push_node hashS n = none) ∧
    (c.has_state n.state = true → c.add_node n = none) ∧
    (c.has_state n.state = false → c.remove_node n = none) ∧
    (q.has_state n.state = false → q.extract_node n = none) ∧
    (q.nodes_queue = [] → q.pop_next_node = none) := by
  refine ⟨?_, ?_, ?_, ?_, ?_⟩
  · intro h
    rw [SearchNodesPriorityQueue.has_state] at h
    rw [SearchNodesPriorityQueue.push_node, if_pos h]
  · intro h
    rw [SearchNodesCollection.has_state] at h
    rw [SearchNodesCollection.add_node, if_pos h]
  · intro h
    rw [SearchNodesCollection.has_state] at h
    rw [SearchNodesCollection.remove_node, if_neg]
    rw [h]
    simp
  · intro h
    rw [SearchNodesPriorityQueue.has_state] at h
    rw [SearchNodesPriorityQueue.extract_node, if_neg]
    rw [h]
    simp
  · intro h
    rw [SearchNodesPriorityQueue.pop_next_node, h]
    rfl

/-- Witness for C7: each violation refused on concrete inputs. -/
theorem claim_C7_contract_violations_fail_witness :
    exQueue1.push_node hashNat exNodeA = none ∧
    exColl1.add_node exNodeA = none ∧
    exColl1.remove_node exNodeB = none ∧
    SearchNodesPriorityQueue.empty.extract_node exNodeA = none ∧
    (SearchNodesPriorityQueue.empty (σ := Nat)).pop_next_node = none :=
  ⟨(claim_C7_contract_violations_fail hashNat exQueue1 exColl1 exNodeA).1 (by decide),
   (claim_C7_contract_violations_fail hashNat exQueue1 exColl1 exNodeA).2.1 (by decide),
   (claim_C7_contract_violations_fail hashNat exQueue1 exColl1 exNodeB).2.2.1 (by decide),
   (claim_C7_contract_violations_fail hashNat SearchNodesPriorityQueue.empty exColl1
     exNodeA).2.2.2.1 (by decide),
   (claim_C7_contract_violations_fail hashNat SearchNodesPriorityQueue.empty exColl1
     exNodeA).2.2.2.2 rfl⟩

/-! ### Node-shape lemmas -/

theorem withPriority_state (n : SearchNode σ) (pr : Int) :
    (n.withPriority pr).state = n.state := by
  cases n <;> rfl

theorem withPriority_rootState (n : SearchNode σ) (pr : Int) :
    (n.withPriority pr).rootState = n.rootState := by
  cases n <;> rfl

theorem make_states_path_ne_nil (n : SearchNode σ) : n.make_states_path ≠ [] := by
  cases n with
  | root s c g pr nm => simp [SearchNode.make_states_path]
  | child s p c g pr nm => simp [SearchNode.make_states_path]

theorem make_states_path_head (n : SearchNode σ) :
    n.make_states_path.head? = some n.rootState := by
  induction n with
  | root s c g pr nm => rfl
  | child s p c g pr nm ih =>
    rw [SearchNode.make_states_path, SearchNode.rootState]
    rw [List.head?_append_of_ne_nil _ (make_states_path_ne_nil p)]
    exact ih

theorem make_states_path_getLast (n : SearchNode σ) :
    n.make_states_path.getLast? = some n.state := by
  cases n with
  | root s c g pr nm => rfl
  | child s p c g pr nm =>
    rw [SearchNode.make_states_path, SearchNode.state]
    simp

/-! ### Closed-collection lemmas -/

theorem mem_dictSet_weak {m : List (σ × α)} {k : σ} {v : α} {x : σ × α}
    (hx : x ∈ dictSet m k v) : x = (k, v) ∨ x ∈ m := by
  induction m with
  | nil =>
    rw [dictSet] at hx
    exact Or.inl (List.mem_singleton.1 hx)
  | cons e rest ih =>
    obtain ⟨k', v'⟩ := e
    rw [dictSet] at hx
    split at hx
    · rcases List.mem_cons.1 hx with hx | hx
      · exact Or.inl hx
      · exact Or.inr (List.mem_cons_of_mem _ hx)
    · rcases List.mem_cons.1 hx with hx | hx
      · exact Or.inr (hx ▸ List.mem_cons_self _ _)
      · rcases ih hx with h | h
        · exact Or.inl h
        · exact Or.inr (List.mem_cons_of_mem _ h)

theorem add_node_eq_some {c c' : SearchNodesCollection σ} {n : SearchNode σ}
    (h : c.add_node n = some c') :
    dictHas c.state_to_search_node_mapping n.state = false ∧
    c' = ⟨dictSet c.state_to_search_node_mapping n.state n⟩ := by
  rw [SearchNodesCollection.add_node] at h
  split at h
  · exact absurd h (by simp)
  · next hc =>
    injection h with h
    exact ⟨Bool.eq_false_iff.2 hc, h.symm⟩

theorem add_node_has_state {c c' : SearchNodesCollection σ} {n : SearchNode σ}
    (h : c.add_node n = some c') : c'.has_state n.state = true := by
  obtain ⟨_, rfl⟩ := add_node_eq_some h
  rw [SearchNodesCollection.has_state, dictHas]
  rw [dictGet_dictSet_self]
  rfl

/-! ### Lemmas on the default `_extract_next_search_node_to_expand` step -/

theorem extractNext_none {bfs : BestFirstSearch σ} {st st' : EngineState σ}
    (h : extractNext bfs st = some (none, st')) :
    st' = st ∧ st.open_queue.is_empty = true := by
  rw [extractNext] at h
  split at h
  · next he =>
    simp only [Option.some.injEq, Prod.mk.injEq] at h
    exact ⟨h.2.symm, he⟩
  · cases hp : st.open_queue.pop_next_node with
    | none => rw [hp] at h; exact absurd h (by simp)
    | some x =>
      obtain ⟨n0, q'⟩ := x
      rw [hp] at h
      simp only at h
      split at h
      · cases hc : st.close with
        | none => rw [hc] at h; exact absurd h (by simp)
        | some c =>
          rw [hc] at h
          simp only at h
          cases ha : c.add_node n0 with
          | none => rw [ha] at h; exact absurd h (by simp)
          | some c' => rw [ha] at h; simp at h
      · simp at h

theorem extractNext_some {bfs : BestFirstSearch σ} {st st' : EngineState σ}
    {n : SearchNode σ} (h : extractNext bfs st = some (some n, st')) :
    st.open_queue.is_empty = false ∧
    ∃ q', st.open_queue.pop_next_node = some (n, q') ∧
      st'.open_queue = q' ∧
      st'.final_search_node = st.final_search_node ∧
      st'.nr_expanded_states = st.nr_expanded_states ∧
      st'.max_nr_stored_states = st.max_nr_stored_states ∧
      st'.exceeded_max_nr_expanded_states = st.exceeded_max_nr_expanded_states ∧
      st'.stored_observations = st.stored_observations ∧
      st'.extracted_nodes = st.extracted_nodes ++ [n] ∧
      (bfs.use_close = true →
        ∃ c c', st.close = some c ∧ c.add_node n = some c' ∧ st'.close = some c') ∧
      (bfs.use_close = false → st'.close = st.close) := by
  rw [extractNext] at h
  split at h
  · exact absurd h (by simp)
  · next hne =>
    have hne' : st.open_queue.is_empty = false := by
      cases hb : st.open_queue.is_empty
      · rfl
      · exact absurd hb hne
    cases hp : st.open_queue.pop_next_node with
    | none => rw [hp] at h; exact absurd h (by simp)
    | some x =>
      obtain ⟨n0, q'⟩ := x
      rw [hp] at h
      simp only at h
      split at h
      · next hu =>
        cases hc : st.close with
        | none => rw [hc] at h; exact absurd h (by simp)
        | some c =>
          rw [hc] at h
          simp only at h
          cases ha : c.add_node n0 with
          | none => rw [ha] at h; exact absurd h (by simp)
          | some c' =>
            rw [ha] at h
            simp only [Option.some.injEq, Prod.mk.injEq] at h
            obtain ⟨hn, hst⟩ := h
            subst hn
            subst hst
            refine ⟨hne', q', rfl, rfl, rfl, rfl, rfl, rfl, rfl, rfl, ?_, ?_⟩
            · intro _
              exact ⟨c, c', rfl, ha, rfl⟩
            · intro hf
              rw [hf] at hu
              exact absurd hu (by simp)
      · next hu =>
        simp only [Option.some.injEq, Prod.mk.injEq] at h
        obtain ⟨hn, hst⟩ := h
        subst hn
        subst hst
        refine ⟨hne', q', rfl, rfl, rfl, rfl, rfl, rfl, rfl, rfl, ?_, ?_⟩
        · intro ht
          rw [ht] at hu
          exact absurd rfl hu
        · intro _
          rfl

theorem extractNext_wf {hashS : σ → Int} {bfs : BestFirstSearch σ}
    {st st' : EngineState σ} {o : Option (SearchNode σ)}
    (hwf : QueueWF hashS st.open_queue) (h : extractNext bfs st = some (o, st')) :
    QueueWF hashS st'.open_queue := by
  cases o with
  | none =>
    obtain ⟨rfl, _⟩ := extractNext_none h
    exact hwf
  | some n =>
    obtain ⟨_, q', hp, ho, _⟩ := extractNext_some h
    rw [ho]
    exact pop_next_node_wf hwf hp

theorem extractNext_members {bfs : BestFirstSearch σ} {st st' : EngineState σ}
    {n : SearchNode σ} (h : extractNext bfs st = some (some n, st')) :
    (∃ p, (n, p) ∈ st.open_queue.nodes_queue) ∧
    (∀ x ∈ st'.open_queue.nodes_queue, x ∈ st.open_queue.nodes_queue) := by
  obtain ⟨_, q', hp, ho, _⟩ := extractNext_some h
  obtain ⟨p, hm, _, _⟩ := pop_next_node_eq_some hp
  have hperm := heapPopMin_perm hm
  constructor
  · exact ⟨p, hperm.mem_iff.2 (List.mem_cons_self _ _)⟩
  · intro x hx
    rw [ho] at hx
    exact hperm.mem_iff.2 (List.mem_cons_of_mem _ hx)

/-! ### Admission-hook effect lemmas -/

theorem sameRunVars_refl (a : EngineState σ) : sameRunVars a a :=
  ⟨rfl, rfl, rfl, rfl, rfl, rfl⟩

theorem sameRunVars_trans {a b c : EngineState σ} (h1 : sameRunVars a b)
    (h2 : sameRunVars b c) : sameRunVars a c := by
  obtain ⟨x1, x2, x3, x4, x5, x6⟩ := h1
  obtain ⟨y1, y2, y3, y4, y5, y6⟩ := h2
  exact ⟨x1.trans y1, x2.trans y2, x3.trans y3, x4.trans y4, x5.trans y5, x6.trans y6⟩

theorem admissionDropOpen_spec {st : EngineState σ} {n : SearchNode σ} {ro : Bool}
    {st1 : EngineState σ} (h : admissionDropOpen st n ro = some st1) :
    sameRunVars st1 st ∧ st1.close = st.close ∧
    (∀ x ∈ st1.open_queue.nodes_queue, x ∈ st.open_queue.nodes_queue) ∧
    (∀ hashS : σ → Int, QueueWF hashS st.open_queue → QueueWF hashS st1.open_queue) := by
  rw [admissionDropOpen] at h
  split at h
  · cases hg : st.open_queue.get_node_by_state n.state with
    | none =>
      rw [hg] at h
      injection h with h
      subst h
      exact ⟨sameRunVars_refl _, rfl, fun x hx => hx, fun _ hwf => hwf⟩
    | some existing =>
      rw [hg] at h
      simp only at h
      cases he : st.open_queue.extract_node existing with
      | none => rw [he] at h; exact absurd h (by simp)
      | some q' =>
        rw [he] at h
        injection h with h
        subst h
        obtain ⟨_, _, hq⟩ := extract_node_eq_some he
        refine ⟨⟨rfl, rfl, rfl, rfl, rfl, rfl⟩, rfl, ?_, ?_⟩
        · intro x hx
          rw [hq] at hx
          exact mem_dictDel hx
        · intro hashS hwf
          exact extract_node_wf hwf he
  · injection h with h
    subst h
    exact ⟨sameRunVars_refl _, rfl, fun x hx => hx, fun _ hwf => hwf⟩

theorem admissionDropClosed_spec {st : EngineState σ} {n : SearchNode σ} {rc : Bool}
    {st2 : EngineState σ} (h : admissionDropClosed st n rc = some st2) :
    sameRunVars st2 st ∧ st2.open_queue = st.open_queue := by
  rw [admissionDropClosed] at h
  split at h
  · cases hc : st.close with
    | none =>
      rw [hc] at h
      injection h with h
      subst h
      exact ⟨sameRunVars_refl _, rfl⟩
    | some c =>
      rw [hc] at h
      simp only at h
      cases hg : c.get_node_by_state n.state with
      | none =>
        rw [hg] at h
        injection h with h
        subst h
        exact ⟨sameRunVars_refl _, rfl⟩
      | some existing =>
        rw [hg] at h
        simp only at h
        cases hr : c.remove_node existing with
        | none => rw [hr] at h; exact absurd h (by simp)
        | some c' =>
          rw [hr] at h
          injection h with h
          subst h
          exact ⟨⟨rfl, rfl, rfl, rfl, rfl, rfl⟩, rfl⟩
  · injection h with h
    subst h
    exact ⟨sameRunVars_refl _, rfl⟩

theorem applyAdmission_spec {hashS : σ → Int} {st : EngineState σ} {n : SearchNode σ}
    {d : AdmissionDecision} {st' : EngineState σ}
    (h : applyAdmission hashS st n d = some st') :
    sameRunVars st' st ∧
    (∀ x ∈ st'.open_queue.nodes_queue,
      x ∈ st.open_queue.nodes_queue ∨ x = (n, nodeKey hashS n)) ∧
    (QueueWF hashS st.open_queue → QueueWF hashS st'.open_queue) := by
  cases d with
  | discard =>
    rw [applyAdmission] at h
    injection h with h
    subst h
    exact ⟨sameRunVars_refl _, fun x hx => Or.inl hx, fun hwf => hwf⟩
  | insert ro rc =>
    rw [applyAdmission] at h
    cases h1 : admissionDropOpen st n ro with
    | none => rw [h1] at h; exact absurd h (by simp)
    | some st1 =>
      rw [h1] at h
      simp only at h
      cases h2 : admissionDropClosed st1 n rc with
      | none => rw [h2] at h; exact absurd h (by simp)
      | some st2 =>
        rw [h2] at h
        simp only at h
        cases hp : st2.open_queue.push_node hashS n with
        | none => rw [hp] at h; exact absurd h (by simp)
        | some q' =>
          rw [hp] at h
          injection h with h
          subst h
          obtain ⟨hsame1, _, hmem1, hwf1⟩ := admissionDropOpen_spec h1
          obtain ⟨hsame2, hopen2⟩ := admissionDropClosed_spec h2
          obtain ⟨_, hq⟩ := push_node_eq_some hp
          refine ⟨?_, ?_, ?_⟩
          · exact sameRunVars_trans ⟨rfl, rfl, rfl, rfl, rfl, rfl⟩
              (sameRunVars_trans hsame2 hsame1)
          · intro x hx
            rw [hq] at hx
            simp only at hx
            rcases mem_dictSet_weak hx with hx | hx
            · exact Or.inr hx
            · rw [hopen2] at hx
              exact Or.inl (hmem1 x hx)
          · intro hwf
            have hwfst2 : QueueWF hashS st2.open_queue := hopen2 ▸ hwf1 hashS hwf
            exact push_node_wf hwfst2 hp

/-! ### Fold-max and stored-states-trace lemmas -/

theorem init_le_foldl_max (l : List Nat) : ∀ b : Nat, b ≤ l.foldl max b := by
  induction l with
  | nil => intro b; exact le_refl b
  | cons a l ih =>
    intro b
    rw [List.foldl_cons]
    exact le_trans (le_max_left b a) (ih (max b a))

theorem mem_le_foldl_max {l : List Nat} {x : Nat} (hx : x ∈ l) :
    ∀ b : Nat, x ≤ l.foldl max b := by
  induction l with
  | nil => simp at hx
  | cons a l ih =>
    intro b
    rw [List.foldl_cons]
    rcases List.mem_cons.1 hx with rfl | hx
    · exact le_trans (le_max_right b x) (init_le_foldl_max l (max b x))
    · exact ih hx (max b a)

theorem recordStored_invariant {st : EngineState σ}
    (h : st.max_nr_stored_states = st.stored_observations.foldl max 0) :
    (recordStored st).max_nr_stored_states =
      (recordStored st).stored_observations.foldl max 0 := by
  show max st.max_nr_stored_states (get_current_nr_stored_states st) =
    (st.stored_observations ++ [get_current_nr_stored_states st]).foldl max 0
  rw [List.foldl_append, ← h]
  rfl

/-! ### Successor-batch lemmas -/

theorem mkSuccessor_rootState (bfs : BestFirstSearch σ) (parent_node : SearchNode σ)
    (op : OperatorResult σ) :
    (mkSuccessor bfs parent_node op).rootState = parent_node.rootState := by
  rw [mkSuccessor]
  rw [withPriority_rootState]
  rfl

theorem processSuccessors_spec {bfs : BestFirstSearch σ} {problem : GraphProblem σ}
    {parent_node : SearchNode σ} :
    ∀ (ops : List (OperatorResult σ)) (st st' : EngineState σ),
    processSuccessors bfs problem parent_node ops st = some st' →
    st'.final_search_node = st.final_search_node ∧
    st'.nr_expanded_states = st.nr_expanded_states ∧
    st'.exceeded_max_nr_expanded_states = st.exceeded_max_nr_expanded_states ∧
    st'.extracted_nodes = st.extracted_nodes ∧
    (QueueWF bfs.hashS st.open_queue → QueueWF bfs.hashS st'.open_queue) ∧
    (∀ r, parent_node.rootState = r → allRooted r st.open_queue →
      allRooted r st'.open_queue) ∧
    (st.max_nr_stored_states = st.stored_observations.foldl max 0 →
      st'.max_nr_stored_states = st'.stored_observations.foldl max 0) := by
  intro ops
  induction ops with
  | nil =>
    intro st st' h
    rw [processSuccessors] at h
    injection h with h
    subst h
    exact ⟨rfl, rfl, rfl, rfl, id, fun r _ hall => hall, id⟩
  | cons op rest ih =>
    intro st st' h
    rw [processSuccessors] at h
    cases hstep : (if passesCriterion bfs (mkSuccessor bfs parent_node op) then
        applyAdmission bfs.hashS st (mkSuccessor bfs parent_node op)
          (bfs.open_successor_decision problem (mkSuccessor bfs parent_node op)
            st.open_queue st.close)
      else some st) with
    | none => rw [hstep] at h; exact absurd h (by simp)
    | some stA =>
      rw [hstep] at h
      simp only at h
      obtain ⟨hfin, hnr, hexc, hext, hwfih, hrootih, htraceih⟩ := ih (recordStored stA) st' h
      have hA : sameRunVars stA st ∧
          (∀ x ∈ stA.open_queue.nodes_queue,
            x ∈ st.open_queue.nodes_queue ∨
              x = (mkSuccessor bfs parent_node op,
                nodeKey bfs.hashS (mkSuccessor bfs parent_node op))) ∧
          (QueueWF bfs.hashS st.open_queue → QueueWF bfs.hashS stA.open_queue) := by
        split at hstep
        · exact applyAdmission_spec hstep
        · injection hstep with hstep
          subst hstep
          exact ⟨sameRunVars_refl _, fun x hx => Or.inl hx, fun hwf => hwf⟩
      obtain ⟨⟨hAfin, hAnr, hAmax, hAexc, hAobs, hAext⟩, hAmem, hAwf⟩ := hA
      refine ⟨?_, ?_, ?_, ?_, ?_, ?_, ?_⟩
      · rw [hfin]; exact hAfin
      · rw [hnr]; exact hAnr
      · rw [hexc]; exact hAexc
      · rw [hext]; exact hAext
      · intro hwf
        exact hwfih (hAwf hwf)
      · intro r hr hall
        refine hrootih r hr ?_
        intro m p hm
        rcases hAmem (m, p) hm with hh | hh
        · exact hall m p hh
        · simp only [Prod.mk.injEq] at hh
          rw [hh.1, mkSuccessor_rootState]
          exact hr
      · intro hinv
        refine htraceih (recordStored_invariant ?_)
        rw [hAmax, hAobs]
        exact hinv

/-! ### Expansion-loop lemmas -/

theorem searchLoop_done_spec {bfs : BestFirstSearch σ} {problem : GraphProblem σ} :
    ∀ (fuel : Nat) (st stF : EngineState σ),
    searchLoop bfs problem fuel st = RunResult.done stF →
    st.final_search_node = none →
    st.exceeded_max_nr_expanded_states = false →
    QueueWF bfs.hashS st.open_queue →
    QueueWF bfs.hashS stF.open_queue ∧
    ((stF.final_search_node = none ∧ stF.exceeded_max_nr_expanded_states = false ∧
        stF.open_queue.is_empty = true) ∨
     (∃ n, stF.final_search_node = some n ∧ problem.is_goal n.state = true ∧
        stF.exceeded_max_nr_expanded_states = false ∧
        stF.extracted_nodes.getLast? = some n) ∨
     (stF.final_search_node = none ∧ stF.exceeded_max_nr_expanded_states = true ∧
        (∃ k, bfs.max_nr_states_to_expand = some k ∧ k ≤ stF.nr_expanded_states) ∧
        (∃ n, stF.extracted_nodes.getLast? = some n ∧ problem.is_goal n.state = false ∧
          stF.open_queue.has_state n.state = false ∧
          (bfs.use_close = true →
            ∃ c, stF.close = some c ∧ c.has_state n.state = true)))) := by
  intro fuel
  induction fuel with
  | zero =>
    intro st stF h
    rw [searchLoop] at h
    exact absurd h (by simp)
  | succ fuel ih =>
    intro st stF h hfin hexc hwf
    rw [searchLoop] at h
    split at h
    · exact absurd h (by simp)
    · rename_i st1 heq
      injection h with h
      subst h
      obtain ⟨rfl, hemp⟩ := extractNext_none heq
      exact ⟨hwf, Or.inl ⟨hfin, hexc, hemp⟩⟩
    · rename_i n st1 heq
      obtain ⟨hne, q', hpop, hopen1, hfin1, hnr1, hmax1, hexc1, hobs1, hext1,
        hcl1, hcl2⟩ := extractNext_some heq
      have hwf1 : QueueWF bfs.hashS st1.open_queue := extractNext_wf hwf heq
      split at h
      · next hgoal =>
        injection h with h
        subst h
        refine ⟨hwf1, Or.inr (Or.inl ⟨n, rfl, hgoal, ?_, ?_⟩)⟩
        · show st1.exceeded_max_nr_expanded_states = false
          rw [hexc1]
          exact hexc
        · show st1.extracted_nodes.getLast? = some n
          rw [hext1]
          simp
      · next hngoal =>
        split at h
        · next hbudget =>
          injection h with h
          subst h
          have hk : ∃ k, bfs.max_nr_states_to_expand = some k ∧
              k ≤ st1.nr_expanded_states := by
            cases hmk : bfs.max_nr_states_to_expand with
            | none => rw [hmk] at hbudget; exact absurd hbudget (by simp)
            | some k =>
              rw [hmk] at hbudget
              exact ⟨k, rfl, of_decide_eq_true hbudget⟩
          refine ⟨hwf1, Or.inr (Or.inr ⟨?_, rfl, hk, n, ?_, ?_, ?_, ?_⟩)⟩
          · show st1.final_search_node = none
            rw [hfin1]
            exact hfin
          · show st1.extracted_nodes.getLast? = some n
            rw [hext1]
            simp
          · cases hg : problem.is_goal n.state
            · rfl
            · exact absurd hg hngoal
          · show st1.open_queue.has_state n.state = false
            rw [hopen1]
            exact pop_next_node_has_state hwf hpop
          · intro hu
            obtain ⟨c, c', _, ha, hc'⟩ := hcl1 hu
            exact ⟨c', hc', add_node_has_state ha⟩
        · next hnbudget =>
          split at h
          · exact absurd h (by simp)
          · rename_i st2 hps
            obtain ⟨hfin2, _, hexc2, _, hwf2c, _, _⟩ := processSuccessors_spec _ _ _ hps
            refine ih st2 stF h ?_ ?_ ?_
            · rw [hfin2]
              show st1.final_search_node = none
              rw [hfin1]
              exact hfin
            · rw [hexc2]
              show st1.exceeded_max_nr_expanded_states = false
              rw [hexc1]
              exact hexc
            · exact hwf2c hwf1

theorem searchLoop_nr_le {bfs : BestFirstSearch σ} {problem : GraphProblem σ} {k : Nat}
    (hk : bfs.max_nr_states_to_expand = some k) :
    ∀ (fuel : Nat) (st stF : EngineState σ),
    searchLoop bfs problem fuel st = RunResult.done stF →
    st.nr_expanded_states ≤ k → stF.nr_expanded_states ≤ k := by
  intro fuel
  induction fuel with
  | zero =>
    intro st stF h
    rw [searchLoop] at h
    exact absurd h (by simp)
  | succ fuel ih =>
    intro st stF h hle
    rw [searchLoop] at h
    split at h
    · exact absurd h (by simp)
    · rename_i st1 heq
      injection h with h
      subst h
      obtain ⟨rfl, _⟩ := extractNext_none heq
      exact hle
    · rename_i n st1 heq
      obtain ⟨_, q', _, _, _, hnr1, _, _, _, _, _, _⟩ := extractNext_some heq
      split at h
      · injection h with h
        subst h
        show st1.nr_expanded_states ≤ k
        rw [hnr1]
        exact hle
      · split at h
        · injection h with h
          subst h
          show st1.nr_expanded_states ≤ k
          rw [hnr1]
          exact hle
        · next hnbudget =>
          have hlt : st1.nr_expanded_states < k := by
            rw [hk] at hnbudget
            have := of_decide_eq_false (Bool.eq_false_iff.2 hnbudget)
            omega
          split at h
          · exact absurd h (by simp)
          · rename_i st2 hps
            obtain ⟨_, hnr2, _, _, _, _, _⟩ := processSuccessors_spec _ _ _ hps
            refine ih st2 stF h ?_
            rw [hnr2]
            show st1.nr_expanded_states + 1 ≤ k
            omega

theorem searchLoop_rooted {bfs : BestFirstSearch σ} {problem : GraphProblem σ} {r : σ} :
    ∀ (fuel : Nat) (st stF : EngineState σ),
    searchLoop bfs problem fuel st = RunResult.done stF →
    st.final_search_node = none →
    allRooted r st.open_queue →
    ∀ n, stF.final_search_node = some n → n.rootState = r := by
  intro fuel
  induction fuel with
  | zero =>
    intro st stF h
    rw [searchLoop] at h
    exact absurd h (by simp)
  | succ fuel ih =>
    intro st stF h hfin hall
    rw [searchLoop] at h
    split at h
    · exact absurd h (by simp)
    · rename_i st1 heq
      injection h with h
      subst h
      obtain ⟨rfl, _⟩ := extractNext_none heq
      intro n hn
      rw [hfin] at hn
      exact absurd hn (by simp)
    · rename_i n st1 heq
      obtain ⟨hmemn, hsub⟩ := extractNext_members heq
      obtain ⟨pn, hpn⟩ := hmemn
      have hroot : n.rootState = r := hall n pn hpn
      obtain ⟨_, q', _, hopen1, hfin1, _, _, _, _, _, _, _⟩ := extractNext_some heq
      have hall1 : allRooted r st1.open_queue := by
        intro m p hm
        exact hall m p (hsub (m, p) hm)
      split at h
      · injection h with h
        subst h
        intro m hm
        have hm' : some n = some m := hm
        injection hm' with hm'
        subst hm'
        exact hroot
      · split at h
        · injection h with h
          subst h
          intro m hm
          have hm' : st1.final_search_node = some m := hm
          rw [hfin1, hfin] at hm'
          exact absurd hm' (by simp)
        · split at h
          · exact absurd h (by simp)
          · rename_i st2 hps
            obtain ⟨hfin2, _, _, _, _, hroot2, _⟩ := processSuccessors_spec _ _ _ hps
            refine ih st2 stF h ?_ ?_
            · rw [hfin2]
              show st1.final_search_node = none
              rw [hfin1]
              exact hfin
            · exact hroot2 r hroot hall1

theorem searchLoop_trace {bfs : BestFirstSearch σ} {problem : GraphProblem σ} :
    ∀ (fuel : Nat) (st stF : EngineState σ),
    searchLoop bfs problem fuel st = RunResult.done stF →
    st.max_nr_stored_states = st.stored_observations.foldl max 0 →
    stF.max_nr_stored_states = stF.stored_observations.foldl max 0 := by
  intro fuel
  induction fuel with
  | zero =>
    intro st stF h
    rw [searchLoop] at h
    exact absurd h (by simp)
  | succ fuel ih =>
    intro st stF h hinv
    rw [searchLoop] at h
    split at h
    · exact absurd h (by simp)
    · rename_i st1 heq
      injection h with h
      subst h
      obtain ⟨rfl, _⟩ := extractNext_none heq
      exact hinv
    · rename_i n st1 heq
      obtain ⟨_, q', _, _, _, _, hmax1, _, hobs1, _, _, _⟩ := extractNext_some heq
      have hinv1 : st1.max_nr_stored_states = st1.stored_observations.foldl max 0 := by
        rw [hmax1, hobs1]
        exact hinv
      split at h
      · injection h with h
        subst h
        exact hinv1
      · split at h
        · injection h with h
          subst h
          exact hinv1
        · split at h
          · exact absurd h (by simp)
          · rename_i st2 hps
            obtain ⟨_, _, _, _, _, _, htrace2⟩ := processSuccessors_spec _ _ _ hps
            exact ih st2 stF h (htrace2 hinv1)

/-! ### `solve_problem` inversion -/

theorem solve_problem_ok_inv {bfs : BestFirstSearch σ} {problem : GraphProblem σ}
    {fuel : Nat} {r : SearchResult σ} {self : BestFirstSearch σ} {st : EngineState σ}
    (h : solve_problem bfs problem fuel = SolveOutcome.ok r self st) :
    searchLoop (freshSelf bfs) problem fuel (recordStored (startState bfs problem)) =
      RunResult.done st ∧
    r.solution_path = (match st.final_search_node with
      | some n => some n.make_states_path
      | none => none) ∧
    r.nr_expanded_states = st.nr_expanded_states ∧
    r.max_nr_stored_states = st.max_nr_stored_states ∧
    r.stop_reason = (if st.exceeded_max_nr_expanded_states then
        StopReason.ExceededMaxNrStatesToExpand
      else StopReason.CompletedRunSuccessfully) ∧
    self = { freshSelf bfs with open_queue := st.open_queue, close := st.close } := by
  have h' : (match searchLoop (freshSelf bfs) problem fuel
      (recordStored (startState bfs problem)) with
    | RunResult.outOfFuel => SolveOutcome.outOfFuel
    | RunResult.assertionFailed => SolveOutcome.assertionFailed
    | RunResult.done stF =>
      SolveOutcome.ok
        { solution_path := (match stF.final_search_node with
            | some n => some n.make_states_path
            | none => none)
          nr_expanded_states := stF.nr_expanded_states
          max_nr_stored_states := stF.max_nr_stored_states
          stop_reason := (if stF.exceeded_max_nr_expanded_states then
              StopReason.ExceededMaxNrStatesToExpand
            else StopReason.CompletedRunSuccessfully) }
        { freshSelf bfs with open_queue := stF.open_queue, close := stF.close }
        stF) = SolveOutcome.ok r self st := h
  cases hloop : searchLoop (freshSelf bfs) problem fuel
      (recordStored (startState bfs problem)) with
  | outOfFuel => rw [hloop] at h'; exact absurd h' (by simp)
  | assertionFailed => rw [hloop] at h'; exact absurd h' (by simp)
  | done stF =>
    rw [hloop] at h'
    simp only at h'
    injection h' with h1 h2 h3
    subst h3
    exact ⟨rfl, congrArg SearchResult.solution_path h1.symm,
      congrArg SearchResult.nr_expanded_states h1.symm,
      congrArg SearchResult.max_nr_stored_states h1.symm,
      congrArg SearchResult.stop_reason h1.symm, h2.symm⟩

theorem mem_of_getLast?_eq {l : List α} {a : α} (h : l.getLast? = some a) : a ∈ l := by
  cases l with
  | nil => simp at h
  | cons x xs =>
    rw [List.getLast?_eq_getLast _ (by simp)] at h
    injection h with h
    exact h ▸ List.getLast_mem _

/-! ### Facts about the run's starting state -/

theorem initNode_state (bfs : BestFirstSearch σ) (problem : GraphProblem σ) :
    (initNode bfs problem).state = problem.initial_state := by
  rw [initNode, withPriority_state]
  rfl

theorem initNode_rootState (bfs : BestFirstSearch σ) (problem : GraphProblem σ) :
    (initNode bfs problem).rootState = problem.initial_state := by
  rw [initNode, withPriority_rootState]
  rfl

theorem startState_wf (bfs : BestFirstSearch σ) (problem : GraphProblem σ) :
    QueueWF bfs.hashS (startState bfs problem).open_queue := by
  constructor
  · intro m p hm
    rcases List.mem_singleton.1 hm with hm
    injection hm with h1 h2
    rw [h1, h2]
  · intro m p hm
    rcases List.mem_singleton.1 hm with hm
    injection hm with h1 h2
    subst h1
    show dictGet [((initNode (freshSelf bfs) problem).state,
      initNode (freshSelf bfs) problem)] (initNode (freshSelf bfs) problem).state =
      some (initNode (freshSelf bfs) problem)
    rw [dictGet]
    simp
  · intro s m hm
    have hm' : dictGet [((initNode (freshSelf bfs) problem).state,
      initNode (freshSelf bfs) problem)] s = some m := hm
    rw [dictGet] at hm'
    split at hm'
    · next hs =>
      injection hm' with hm''
      subst hm''
      exact ⟨hs, _, List.mem_singleton.2 rfl⟩
    · rw [dictGet] at hm'
      exact absurd hm' (by simp)
  · show ([((initNode (freshSelf bfs) problem).state,
      initNode (freshSelf bfs) problem)].map Prod.fst).Nodup
    simp
  · show ([(initNode (freshSelf bfs) problem,
      nodeKey bfs.hashS (initNode (freshSelf bfs) problem))].map Prod.fst).Nodup
    simp

theorem startState_rooted (bfs : BestFirstSearch σ) (problem : GraphProblem σ) :
    allRooted problem.initial_state (startState bfs problem).open_queue := by
  intro m p hm
  rcases List.mem_singleton.1 hm with hm
  injection hm with h1 h2
  rw [h1]
  exact initNode_rootState (freshSelf bfs) problem

/-- Read the exceeded flag back from the assembled `stop_reason`. -/
theorem exceeded_of_stop_eq {st0 : EngineState σ} {r0 : SearchResult σ}
    (hstop : r0.stop_reason = (if st0.exceeded_max_nr_expanded_states then
        StopReason.ExceededMaxNrStatesToExpand
      else StopReason.CompletedRunSuccessfully)) :
    (r0.stop_reason = StopReason.ExceededMaxNrStatesToExpand →
      st0.exceeded_max_nr_expanded_states = true) ∧
    (r0.stop_reason = StopReason.CompletedRunSuccessfully →
      st0.exceeded_max_nr_expanded_states = false) := by
  cases hex : st0.exceeded_max_nr_expanded_states
  · rw [hex] at hstop
    simp at hstop
    constructor
    · intro h
      rw [hstop] at h
      exact absurd h (by simp)
    · intro _
      rfl
  · rw [hex] at hstop
    simp at hstop
    constructor
    · intro _
      rfl
    · intro h
      rw [hstop] at h
      exact absurd h (by simp)

/-! ### Claims about the expansion loop -/

/-- C10: `solve_problem` never modifies the `max_nr_stored_states`
attribute set to `0` by the constructor: after a successful run the
solver object still carries `0`, and the peak-stored-states statistic is
reported only through the run-local counter placed in the returned
`SearchResult`. -/
theorem claim_C10_self_max_stored_untouched {use_close : Bool}
    {max_nr : Option Nat} {crit : Option (SearchNode σ → Bool)}
    {score : SearchNode σ → Int}
    {adm : GraphProblem σ → SearchNode σ → SearchNodesPriorityQueue σ →
      Option (SearchNodesCollection σ) → AdmissionDecision}
    {hashS : σ → Int} {problem : GraphProblem σ} {fuel : Nat}
    {m : Nat} {r : SearchResult σ} {st : EngineState σ}
    (hm : (solve_problem (BestFirstSearch.init use_close max_nr crit score adm hashS)
      problem fuel).selfMaxStored? = some m)
    (hr : (solve_problem (BestFirstSearch.init use_close max_nr crit score adm hashS)
      problem fuel).result? = some r)
    (hst : (solve_problem (BestFirstSearch.init use_close max_nr crit score adm hashS)
      problem fuel).finalState? = some st) :
    m = 0 ∧ r.max_nr_stored_states = st.max_nr_stored_states := by
  cases hs : solve_problem (BestFirstSearch.init use_close max_nr crit score adm hashS)
      problem fuel with
  | ok r0 self0 st0 =>
    rw [hs] at hm hr hst
    injection hm with hm
    injection hr with hr
    injection hst with hst
    subst hm
    subst hr
    subst hst
    obtain ⟨_, _, _, hmax, _, hself⟩ := solve_problem_ok_inv hs
    constructor
    · rw [hself]
      rfl
    · exact hmax
  | assertionFailed => rw [hs] at hm; exact absurd hm (by simp [SolveOutcome.selfMaxStored?])
  | outOfFuel => rw [hs] at hm; exact absurd hm (by simp [SolveOutcome.selfMaxStored?])

/-- Witness for C10 on the trivial-goal run. -/
theorem claim_C10_self_max_stored_untouched_witness :
    (0 : Nat) = 0 ∧
    trivialRunResult.max_nr_stored_states = trivialRunState.max_nr_stored_states :=
  @claim_C10_self_max_stored_untouched Nat _ true none none (fun n => n.g_cost)
    ucAdmit hashNat trivialGoalProblem 10 0 trivialRunResult trivialRunState
    (by decide) (by decide) (by decide)

/-- C6: the `max_nr_stored_states` value in the returned result bounds
the stored-states count at every observed point of the run, and equals
the historical peak (the maximum over all observations). -/
theorem claim_C6_max_stored_peak {bfs : BestFirstSearch σ} {problem : GraphProblem σ}
    {fuel : Nat} {r : SearchResult σ} {st : EngineState σ}
    (hr : (solve_problem bfs problem fuel).result? = some r)
    (hst : (solve_problem bfs problem fuel).finalState? = some st) :
    (∀ x ∈ st.stored_observations, x ≤ r.max_nr_stored_states) ∧
    r.max_nr_stored_states = st.stored_observations.foldl max 0 := by
  cases hs : solve_problem bfs problem fuel with
  | ok r0 self0 st0 =>
    rw [hs] at hr hst
    injection hr with hr
    injection hst with hst
    subst hr
    subst hst
    obtain ⟨hloop, _, _, hmax, _, _⟩ := solve_problem_ok_inv hs
    have hstart : (recordStored (startState bfs problem)).max_nr_stored_states =
        (recordStored (startState bfs problem)).stored_observations.foldl max 0 :=
      recordStored_invariant rfl
    have htr := searchLoop_trace fuel _ _ hloop hstart
    constructor
    · intro x hx
      rw [hmax, htr]
      exact mem_le_foldl_max hx 0
    · rw [hmax]
      exact htr
  | assertionFailed => rw [hs] at hr; exact absurd hr (by simp [SolveOutcome.result?])
  | outOfFuel => rw [hs] at hr; exact absurd hr (by simp [SolveOutcome.result?])

/-- Witness for C6 on the no-successor run (one observation, peak 1). -/
theorem claim_C6_max_stored_peak_witness :
    (∀ x ∈ emptyRunState.stored_observations,
      x ≤ emptyRunResult.max_nr_stored_states) ∧
    emptyRunResult.max_nr_stored_states =
      emptyRunState.stored_observations.foldl max 0 :=
  @claim_C6_max_stored_peak Nat _ ucSolver emptyProblem 10 emptyRunResult
    emptyRunState (by decide) (by decide)

/-- C4: in every loop iteration the goal test on the popped node precedes
the budget test: a popped goal node ends the run as the recorded solution
node even when the expansion count has already reached the budget, and
only a popped non-goal node triggers the budget termination, which then
stops the run without expanding that node (only the exceeded flag is
set; the expansion count stays as extracted). -/
theorem claim_C4_goal_before_budget {bfs : BestFirstSearch σ} {problem : GraphProblem σ}
    {st st' : EngineState σ} {n : SearchNode σ} {fuel k : Nat}
    (hext : extractNext bfs st = some (some n, st'))
    (hk : bfs.max_nr_states_to_expand = some k)
    (hge : k ≤ st'.nr_expanded_states) :
    (problem.is_goal n.state = true →
      searchLoop bfs problem (fuel + 1) st =
        RunResult.done { st' with final_search_node := some n }) ∧
    (problem.is_goal n.state = false →
      searchLoop bfs problem (fuel + 1) st =
        RunResult.done { st' with exceeded_max_nr_expanded_states := true }) := by
  have hshow : searchLoop bfs problem (fuel + 1) st =
      (if problem.is_goal n.state = true then
        RunResult.done { st' with final_search_node := some n }
      else if (match bfs.max_nr_states_to_expand with
               | some k' => decide (st'.nr_expanded_states ≥ k')
               | none => false) = true then
        RunResult.done { st' with exceeded_max_nr_expanded_states := true }
      else
        match processSuccessors bfs problem n
            (problem.expand_state_with_costs n.state)
            { st' with nr_expanded_states := st'.nr_expanded_states + 1 } with
        | none => RunResult.assertionFailed
        | some st''' => searchLoop bfs problem fuel st''') := by
    rw [searchLoop, hext]
  constructor
  · intro hgoal
    rw [hshow, if_pos hgoal]
  · intro hngoal
    rw [hshow, if_neg (by simp [hngoal])]
    rw [if_pos (by rw [hk]; exact decide_eq_true hge)]

/-- Witness for C4: extracting the single node of `exState1` with budget
0 already reached; with a satisfied goal the loop ends goal-found, with
an unsatisfied goal it ends budget-exceeded without expanding. -/
theorem claim_C4_goal_before_budget_witness :
    searchLoop (ucSolverBudget 0) trivialGoalProblem 1 exState1 =
      RunResult.done { exState2 with final_search_node := some exNodeA } ∧
    searchLoop (ucSolverBudget 0) chainProblem 1 exState1 =
      RunResult.done { exState2 with exceeded_max_nr_expanded_states := true } :=
  ⟨(@claim_C4_goal_before_budget Nat _ (ucSolverBudget 0) trivialGoalProblem
      exState1 exState2 exNodeA 0 0 (by decide) rfl (by decide)).1 rfl,
   (@claim_C4_goal_before_budget Nat _ (ucSolverBudget 0) chainProblem
      exState1 exState2 exNodeA 0 0 (by decide) rfl (by decide)).2 rfl⟩

/-- C3: with `max_nr_states_to_expand = k` a terminating run expands at
most `k` nodes; `stop_reason` is `ExceededMaxNrStatesToExpand` exactly
for budget termination — goal not reached (no path), exactly `k` nodes
expanded, and a further non-goal node already popped (open was not
exhausted first) — and otherwise `CompletedRunSuccessfully`: either a
path was found or the open queue was exhausted (empty at the end). -/
theorem claim_C3_budget_enforcement {bfs : BestFirstSearch σ} {problem : GraphProblem σ}
    {fuel k : Nat} {r : SearchResult σ} {st : EngineState σ}
    (hk : bfs.max_nr_states_to_expand = some k)
    (hr : (solve_problem bfs problem fuel).result? = some r)
    (hst : (solve_problem bfs problem fuel).finalState? = some st) :
    r.nr_expanded_states ≤ k ∧
    (r.stop_reason = StopReason.ExceededMaxNrStatesToExpand →
      r.solution_path = none ∧ r.nr_expanded_states = k ∧
      ∃ n, st.extracted_nodes.getLast? = some n ∧ problem.is_goal n.state = false) ∧
    (r.stop_reason = StopReason.CompletedRunSuccessfully →
      (∃ p, r.solution_path = some p) ∨ st.open_queue.is_empty = true) := by
  cases hs : solve_problem bfs problem fuel with
  | ok r0 self0 st0 =>
    rw [hs] at hr hst
    injection hr with hr
    injection hst with hst
    subst hr
    subst hst
    obtain ⟨hloop, hpath, hnr, _, hstop, _⟩ := solve_problem_ok_inv hs
    have hkf : (freshSelf bfs).max_nr_states_to_expand = some k := hk
    have hle : st0.nr_expanded_states ≤ k :=
      searchLoop_nr_le hkf fuel _ _ hloop (Nat.zero_le k)
    obtain ⟨_, hcase⟩ :=
      searchLoop_done_spec fuel _ _ hloop rfl rfl (startState_wf bfs problem)
    refine ⟨by rw [hnr]; exact hle, ?_, ?_⟩
    · intro hstop'
      have hexc : st0.exceeded_max_nr_expanded_states = true :=
        (exceeded_of_stop_eq hstop).1 hstop'
      rcases hcase with ⟨_, hf, _⟩ | ⟨n, _, _, hf, _⟩ | ⟨hfin0, _, hkk, n, hlast, hng, _, _⟩
      · rw [hexc] at hf; exact absurd hf (by simp)
      · rw [hexc] at hf; exact absurd hf (by simp)
      · refine ⟨?_, ?_, n, hlast, hng⟩
        · rw [hpath, hfin0]
        · obtain ⟨k', hk', hkle⟩ := hkk
          have hk'' : bfs.max_nr_states_to_expand = some k' := hk'
          rw [hk] at hk''
          injection hk'' with hk''
          rw [hnr]
          omega
    · intro hstop'
      have hexc : st0.exceeded_max_nr_expanded_states = false :=
        (exceeded_of_stop_eq hstop).2 hstop'
      rcases hcase with ⟨hf, _, hemp⟩ | ⟨n, hfin0, _, _, _⟩ | ⟨_, hf, _, _⟩
      · exact Or.inr hemp
      · refine Or.inl ⟨n.make_states_path, ?_⟩
        rw [hpath, hfin0]
      · rw [hexc] at hf; exact absurd hf (by simp)
  | assertionFailed => rw [hs] at hr; exact absurd hr (by simp [SolveOutcome.result?])
  | outOfFuel => rw [hs] at hr; exact absurd hr (by simp [SolveOutcome.result?])

/-- Witness for C3 on the budget-0 chain run. -/
theorem claim_C3_budget_enforcement_witness :
    budgetRunResult.nr_expanded_states ≤ 0 ∧
    (budgetRunResult.stop_reason = StopReason.ExceededMaxNrStatesToExpand →
      budgetRunResult.solution_path = none ∧ budgetRunResult.nr_expanded_states = 0 ∧
      ∃ n, budgetRunState.extracted_nodes.getLast? = some n ∧
        chainProblem.is_goal n.state = false) ∧
    (budgetRunResult.stop_reason = StopReason.CompletedRunSuccessfully →
      (∃ p, budgetRunResult.solution_path = some p) ∨
      budgetRunState.open_queue.is_empty = true) :=
  @claim_C3_budget_enforcement Nat _ (ucSolverBudget 0) chainProblem 10 0
    budgetRunResult budgetRunState rfl (by decide) (by decide)

/-- C9: when a `use_close = True` run stops with budget exceeded, the
node whose extraction triggered the budget check (the last extracted
node) has already left `open` and entered `close`, although it was never
expanded — the run reports no solution and exactly the budgeted number
of expansions, none of them this node. -/
theorem claim_C9_budget_node_closed {bfs : BestFirstSearch σ} {problem : GraphProblem σ}
    {fuel : Nat} {r : SearchResult σ} {st : EngineState σ}
    (huse : bfs.use_close = true)
    (hr : (solve_problem bfs problem fuel).result? = some r)
    (hst : (solve_problem bfs problem fuel).finalState? = some st)
    (hstop : r.stop_reason = StopReason.ExceededMaxNrStatesToExpand) :
    ∃ n, st.extracted_nodes.getLast? = some n ∧
      st.open_queue.has_state n.state = false ∧
      (∃ c, st.close = some c ∧ c.has_state n.state = true) ∧
      r.solution_path = none ∧
      ∃ k, bfs.max_nr_states_to_expand = some k ∧ r.nr_expanded_states = k := by
  cases hs : solve_problem bfs problem fuel with
  | ok r0 self0 st0 =>
    rw [hs] at hr hst
    injection hr with hr
    injection hst with hst
    subst hr
    subst hst
    obtain ⟨hloop, hpath, hnr, _, hstopr, _⟩ := solve_problem_ok_inv hs
    obtain ⟨_, hcase⟩ :=
      searchLoop_done_spec fuel _ _ hloop rfl rfl (startState_wf bfs problem)
    have hexc : st0.exceeded_max_nr_expanded_states = true :=
      (exceeded_of_stop_eq hstopr).1 hstop
    rcases hcase with ⟨_, hf, _⟩ | ⟨n, _, _, hf, _⟩ | ⟨hfin0, _, hkk, n, hlast, _, hop, hcl⟩
    · rw [hexc] at hf; exact absurd hf (by simp)
    · rw [hexc] at hf; exact absurd hf (by simp)
    · obtain ⟨c, hc, hchas⟩ := hcl huse
      obtain ⟨k', hk', hkle⟩ := hkk
      have hk'' : bfs.max_nr_states_to_expand = some k' := hk'
      have hle : st0.nr_expanded_states ≤ k' :=
        searchLoop_nr_le hk' fuel _ _ hloop (Nat.zero_le k')
      refine ⟨n, hlast, hop, ⟨c, hc, hchas⟩, ?_, k', hk'', ?_⟩
      · rw [hpath, hfin0]
      · rw [hnr]
        omega
  | assertionFailed => rw [hs] at hr; exact absurd hr (by simp [SolveOutcome.result?])
  | outOfFuel => rw [hs] at hr; exact absurd hr (by simp [SolveOutcome.result?])

/-- Witness for C9 on the budget-0 chain run. -/
theorem claim_C9_budget_node_closed_witness :
    ∃ n, budgetRunState.extracted_nodes.getLast? = some n ∧
      budgetRunState.open_queue.has_state n.state = false ∧
      (∃ c, budgetRunState.close = some c ∧ c.has_state n.state = true) ∧
      budgetRunResult.solution_path = none ∧
      ∃ k, (ucSolverBudget 0).max_nr_states_to_expand = some k ∧
        budgetRunResult.nr_expanded_states = k :=
  @claim_C9_budget_node_closed Nat _ (ucSolverBudget 0) chainProblem 10
    budgetRunResult budgetRunState rfl (by decide) (by decide) rfl

/-- C1: for every run with `use_close = True` that returns a solution
path (a reachable goal was found), the path is non-empty, its first
element is the problem's initial state, and its last element satisfies
the goal predicate. -/
theorem claim_C1_solution_path_endpoints {bfs : BestFirstSearch σ}
    {problem : GraphProblem σ} {fuel : Nat} {r : SearchResult σ} {path : List σ}
    (huse : bfs.use_close = true)
    (hr : (solve_problem bfs problem fuel).result? = some r)
    (hpath : r.solution_path = some path) :
    path ≠ [] ∧ path.head? = some problem.initial_state ∧
    ∃ g, path.getLast? = some g ∧ problem.is_goal g = true := by
  cases hs : solve_problem bfs problem fuel with
  | ok r0 self0 st0 =>
    rw [hs] at hr
    injection hr with hr
    subst hr
    obtain ⟨hloop, hsol, _, _, _, _⟩ := solve_problem_ok_inv hs
    cases hfin : st0.final_search_node with
    | none =>
      rw [hsol, hfin] at hpath
      exact absurd hpath (by simp)
    | some n =>
      rw [hsol, hfin] at hpath
      have hpath' : some n.make_states_path = some path := hpath
      injection hpath' with hpath'
      subst hpath'
      refine ⟨make_states_path_ne_nil n, ?_, n.state, make_states_path_getLast n, ?_⟩
      · rw [make_states_path_head]
        rw [searchLoop_rooted fuel _ _ hloop rfl (startState_rooted bfs problem) n hfin]
      · obtain ⟨_, hcase⟩ :=
          searchLoop_done_spec fuel _ _ hloop rfl rfl (startState_wf bfs problem)
        rcases hcase with ⟨hf, _, _⟩ | ⟨m, hm, hg, _, _⟩ | ⟨hf, _, _, _⟩
        · rw [hfin] at hf; exact absurd hf (by simp)
        · rw [hfin] at hm
          injection hm with hm
          rw [hm]
          exact hg
        · rw [hfin] at hf; exact absurd hf (by simp)
  | assertionFailed => rw [hs] at hr; exact absurd hr (by simp [SolveOutcome.result?])
  | outOfFuel => rw [hs] at hr; exact absurd hr (by simp [SolveOutcome.result?])

/-- Witness for C1 on the chain run (path `[0, 1, 2, 3]`). -/
theorem claim_C1_solution_path_endpoints_witness :
    ([0, 1, 2, 3] : List Nat) ≠ [] ∧
    ([0, 1, 2, 3] : List Nat).head? = some chainProblem.initial_state ∧
    ∃ g, ([0, 1, 2, 3] : List Nat).getLast? = some g ∧
      chainProblem.is_goal g = true :=
  @claim_C1_solution_path_endpoints Nat _ ucSolver chainProblem 10
    chainRunResult [0, 1, 2, 3] rfl (by decide) rfl

/-- C8: the goal predicate decides termination only through extracted
nodes: processing a successor batch never sets the solution node nor the
extraction trace (a goal-satisfying successor is merely scored and
offered to the admission hook), and a run that ends goal-found does so
at a node that was popped from open — the solution node belongs to the
extraction trace. -/
theorem claim_C8_goal_only_on_extracted {bfs : BestFirstSearch σ}
    {problem : GraphProblem σ} :
    (∀ (parent : SearchNode σ) (ops : List (OperatorResult σ))
      (st st' : EngineState σ),
      processSuccessors bfs problem parent ops st = some st' →
      st'.final_search_node = st.final_search_node ∧
      st'.extracted_nodes = st.extracted_nodes) ∧
    (∀ (fuel : Nat) (r : SearchResult σ) (st : EngineState σ) (p : List σ),
      (solve_problem bfs problem fuel).result? = some r →
      (solve_problem bfs problem fuel).finalState? = some st →
      r.solution_path = some p →
      ∃ n, st.final_search_node = some n ∧ n ∈ st.extracted_nodes ∧
        problem.is_goal n.state = true ∧ p = n.make_states_path) := by
  constructor
  · intro parent ops st st' h
    obtain ⟨h1, _, _, h4, _, _, _⟩ := processSuccessors_spec _ _ _ h
    exact ⟨h1, h4⟩
  · intro fuel r st p hr hst hp
    cases hs : solve_problem bfs problem fuel with
    | ok r0 self0 st0 =>
      rw [hs] at hr hst
      injection hr with hr
      injection hst with hst
      subst hr
      subst hst
      obtain ⟨hloop, hsol, _, _, _, _⟩ := solve_problem_ok_inv hs
      obtain ⟨_, hcase⟩ :=
        searchLoop_done_spec fuel _ _ hloop rfl rfl (startState_wf bfs problem)
      cases hfin : st0.final_search_node with
      | none =>
        rw [hsol, hfin] at hp
        exact absurd hp (by simp)
      | some n =>
        rw [hsol, hfin] at hp
        have hp' : some n.make_states_path = some p := hp
        injection hp' with hp'
        rcases hcase with ⟨hf, _, _⟩ | ⟨m, hm, hg, _, hlast⟩ | ⟨hf, _, _, _⟩
        · rw [hfin] at hf; exact absurd hf (by simp)
        · rw [hfin] at hm
          injection hm with hm
          subst hm
          exact ⟨n, rfl, mem_of_getLast?_eq hlast, hg, hp'.symm⟩
        · rw [hfin] at hf; exact absurd hf (by simp)
    | assertionFailed => rw [hs] at hr; exact absurd hr (by simp [SolveOutcome.result?])
    | outOfFuel => rw [hs] at hr; exact absurd hr (by simp [SolveOutcome.result?])

/-- Witness for C8: the empty successor batch leaves the run variables
unchanged, and the trivial-goal run's solution node is its extracted
node. -/
theorem claim_C8_goal_only_on_extracted_witness :
    (exState1.final_search_node = exState1.final_search_node ∧
      exState1.extracted_nodes = exState1.extracted_nodes) ∧
    ∃ n, trivialRunState.final_search_node = some n ∧
      n ∈ trivialRunState.extracted_nodes ∧
      trivialGoalProblem.is_goal n.state = true ∧ [0] = n.make_states_path :=
  ⟨(@claim_C8_goal_only_on_extracted Nat _ ucSolver
      trivialGoalProblem).1 exNodeA [] exState1 exState1 rfl,
   (@claim_C8_goal_only_on_extracted Nat _ ucSolver
      trivialGoalProblem).2 10 trivialRunResult trivialRunState [0]
      (by decide) (by decide) rfl⟩

end BFS
